import Mathlib

/-
Verification of the binary-scanning core of the forensic-suite repository.

Byte buffers are modelled as `List Nat` (each element one byte; byte-range
membership is irrelevant to the scanning logic, which only compares bytes
for equality).  JavaScript loops are translated to fuel-based structural
recursions; every function is called with fuel provably sufficient for the
source loop's own bound, so the translation computes exactly the loop's
result.  `Buffer.indexOf(needle, start)` is `idxOfFrom`: the first index
at or after `start` where `needle` occurs in full.  JavaScript arithmetic
that can go negative (`globalOffset = readStart + bytesRead - overlap`)
is modelled with truncated subtraction; the surrounding code immediately
clamps negative values with `Math.max(0, _)`, so the two agree (proved
where used).
-/

namespace Forensic

/-- `startsWithB hay needle`: `needle` occurs at the start of `hay`
(byte-wise equality), i.e. `hay.take needle.length = needle`. -/
def startsWithB : List Nat → List Nat → Bool
  | _, [] => true
  | [], _ :: _ => false
  | a :: as, b :: bs => a == b && startsWithB as bs

/-- `occB hay needle i`: `needle` occurs in `hay` at index `i` in full. -/
def occB (hay needle : List Nat) (i : Nat) : Bool :=
  startsWithB (hay.drop i) needle

/-- Scan a list left to right for the first index (counted from `i`)
where `needle` occurs.  Model of `Buffer.indexOf`'s scan. -/
def idxOfAux (needle : List Nat) : List Nat → Nat → Option Nat
  | [], _ => none
  | a :: tl, i =>
    if startsWithB (a :: tl) needle then some i else idxOfAux needle tl (i + 1)

/-- `Buffer.indexOf(needle, start)` for a non-empty needle: the least
`j ≥ start` with a full occurrence of `needle` at `j`, if any. -/
def idxOfFrom (hay needle : List Nat) (start : Nat) : Option Nat :=
  (idxOfAux needle (hay.drop start) 0).map (· + start)

/-- The (sorted) list of all occurrence indices of `needle` in `hay` at or
after `start`. -/
def matchesFrom (hay needle : List Nat) (start : Nat) : List Nat :=
  (List.range (hay.length + 1)).filter (fun i => decide (start ≤ i) && occB hay needle i)

theorem startsWithB_length {hay needle : List Nat}
    (h : startsWithB hay needle = true) : needle.length ≤ hay.length := by
  induction needle generalizing hay with
  | nil => simp
  | cons b bs ih =>
    cases hay with
    | nil => simp [startsWithB] at h
    | cons a as =>
      simp only [startsWithB, Bool.and_eq_true] at h
      simpa using ih h.2

theorem occB_le {hay needle : List Nat} {i : Nat} (hne : needle ≠ [])
    (h : occB hay needle i = true) : i + needle.length ≤ hay.length := by
  have hlen := startsWithB_length h
  rw [List.length_drop] at hlen
  rcases Nat.lt_or_ge i hay.length with hi | hi
  · omega
  · -- then `hay.drop i = []`, so the needle would have to be empty
    have : hay.drop i = [] := List.drop_eq_nil_of_le hi
    rw [occB, this] at h
    cases needle with
    | nil => exact absurd rfl hne
    | cons b bs => simp [startsWithB] at h

theorem startsWithB_take (xs needle : List Nat) (m : Nat) :
    startsWithB (xs.take m) needle
      = (startsWithB xs needle && decide (needle.length ≤ m)) := by
  induction needle generalizing xs m with
  | nil => simp [startsWithB]
  | cons b bs ih =>
    cases xs with
    | nil => cases m <;> simp [startsWithB]
    | cons a as =>
      cases m with
      | zero => simp [startsWithB]
      | succ m' =>
        simp only [List.take_succ_cons, startsWithB, ih as m']
        by_cases hab : a == b <;>
          by_cases hsw : startsWithB as bs <;>
            simp [hab, hsw, Nat.succ_le_succ_iff]

theorem idxOfAux_none {needle : List Nat} (hne : needle ≠ []) :
    ∀ (hs : List Nat) (i : Nat), idxOfAux needle hs i = none ↔
      ∀ j, startsWithB (hs.drop j) needle = false := by
  intro hs
  induction hs with
  | nil =>
    intro i
    constructor
    · intro _ j
      cases needle with
      | nil => exact absurd rfl hne
      | cons b bs => simp [startsWithB]
    · intro _; rfl
  | cons a tl ih =>
    intro i
    simp only [idxOfAux]
    by_cases hsw : startsWithB (a :: tl) needle
    · simp only [hsw, if_true]
      constructor
      · intro h; exact absurd h (by simp)
      · intro h
        have := h 0
        simp [hsw] at this
    · simp only [hsw, if_neg, Bool.false_eq_true, not_false_eq_true, if_false]
      rw [ih (i + 1)]
      constructor
      · intro h j
        cases j with
        | zero => simpa using hsw
        | succ j' => simpa using h j'
      · intro h j
        simpa using h (j + 1)

theorem idxOfAux_some {needle : List Nat} :
    ∀ (hs : List Nat) (i j : Nat), idxOfAux needle hs i = some j →
      ∃ d, j = i + d ∧ startsWithB (hs.drop d) needle = true ∧
        ∀ e, e < d → startsWithB (hs.drop e) needle = false := by
  intro hs
  induction hs with
  | nil => intro i j h; simp [idxOfAux] at h
  | cons a tl ih =>
    intro i j h
    simp only [idxOfAux] at h
    by_cases hsw : startsWithB (a :: tl) needle
    · rw [if_pos hsw] at h
      refine ⟨0, by simpa using h.symm, by simpa using hsw, by omega⟩
    · rw [if_neg hsw] at h
      obtain ⟨d, hd, hocc, hmin⟩ := ih (i + 1) j h
      refine ⟨d + 1, by omega, by simpa using hocc, ?_⟩
      intro e he
      cases e with
      | zero => simpa using hsw
      | succ e' => simpa using hmin e' (by omega)

theorem idxOfAux_some_of {needle : List Nat} (hne : needle ≠ []) :
    ∀ (hs : List Nat) (i d : Nat),
      startsWithB (hs.drop d) needle = true →
      (∀ e, e < d → startsWithB (hs.drop e) needle = false) →
      idxOfAux needle hs i = some (i + d) := by
  intro hs
  induction hs with
  | nil =>
    intro i d hocc _
    rw [List.drop_nil] at hocc
    cases needle with
    | nil => exact absurd rfl hne
    | cons b bs => simp [startsWithB] at hocc
  | cons a tl ih =>
    intro i d hocc hmin
    simp only [idxOfAux]
    cases d with
    | zero =>
      rw [List.drop_zero] at hocc
      simp [hocc]
    | succ d' =>
      have h0 : startsWithB (a :: tl) needle = false := by simpa using hmin 0 (by omega)
      rw [if_neg (by simp [h0])]
      have := ih (i + 1) d' (by simpa using hocc)
        (fun e he => by simpa using hmin (e + 1) (by omega))
      rw [this]
      congr 1
      omega

theorem occB_drop_add (hay needle : List Nat) (start d : Nat) :
    startsWithB ((hay.drop start).drop d) needle = occB hay needle (start + d) := by
  rw [occB, List.drop_drop]

theorem idxOfFrom_none {hay needle : List Nat} {start : Nat} (hne : needle ≠ [])
    (h : idxOfFrom hay needle start = none) :
    ∀ k, start ≤ k → occB hay needle k = false := by
  intro k hk
  rw [idxOfFrom, Option.map_eq_none'] at h
  have := (idxOfAux_none hne (hay.drop start) 0).1 h (k - start)
  rw [occB_drop_add] at this
  have hks : start + (k - start) = k := by omega
  rwa [hks] at this

theorem idxOfFrom_some {hay needle : List Nat} {start j : Nat}
    (h : idxOfFrom hay needle start = some j) :
    start ≤ j ∧ occB hay needle j = true ∧
      ∀ k, start ≤ k → k < j → occB hay needle k = false := by
  rw [idxOfFrom, Option.map_eq_some'] at h
  obtain ⟨j0, hj0, hjeq⟩ := h
  obtain ⟨d, hd, hocc, hmin⟩ := idxOfAux_some (hay.drop start) 0 j0 hj0
  rw [occB_drop_add] at hocc
  have hj : j = start + d := by omega
  subst hj
  constructor
  · omega
  constructor
  · exact hocc
  · intro k hk1 hk2
    have := hmin (k - start) (by omega)
    rw [occB_drop_add] at this
    have hks : start + (k - start) = k := by omega
    rwa [hks] at this

theorem idxOfFrom_some_of {hay needle : List Nat} {start j : Nat} (hne : needle ≠ [])
    (hj : start ≤ j) (hocc : occB hay needle j = true)
    (hmin : ∀ k, start ≤ k → k < j → occB hay needle k = false) :
    idxOfFrom hay needle start = some j := by
  rw [idxOfFrom]
  have h1 : startsWithB ((hay.drop start).drop (j - start)) needle = true := by
    rw [occB_drop_add]
    have : start + (j - start) = j := by omega
    rwa [this]
  have h2 : ∀ e, e < j - start → startsWithB ((hay.drop start).drop e) needle = false := by
    intro e he
    rw [occB_drop_add]
    exact hmin (start + e) (by omega) (by omega)
  rw [idxOfAux_some_of hne (hay.drop start) 0 (j - start) h1 h2]
  simp only [Option.map_some']
  congr 1
  omega

/-- A length-monotone form of `filter`: a pointwise-stronger predicate keeps
fewer elements. -/
theorem filter_length_mono {l : List Nat} {p q : Nat → Bool}
    (h : ∀ a ∈ l, p a = true → q a = true) :
    (l.filter p).length ≤ (l.filter q).length := by
  induction l with
  | nil => simp
  | cons a tl ih =>
    have htl : ∀ b ∈ tl, p b = true → q b = true := fun b hb => h b (by simp [hb])
    by_cases hpa : p a = true
    · have hqa : q a = true := h a (by simp) hpa
      simp only [List.filter_cons, hpa, hqa, if_true, List.length_cons]
      exact Nat.succ_le_succ (ih htl)
    · simp only [List.filter_cons, hpa, if_false]
      by_cases hqa : q a = true
      · simp only [hqa, if_true, List.length_cons]
        exact Nat.le_succ_of_le (ih htl)
      · simp only [hqa, if_false]
        exact ih htl

/-- Splitting a filtered range at an order boundary: if `P` is the disjunction
of `A` and `B` on the range, and every `A`-element precedes every `B`-element,
the `P`-filter is the `A`-filter followed by the `B`-filter. -/
theorem filter_range_split (n : Nat) (P A B : Nat → Bool)
    (hPAB : ∀ i, i < n → (P i = true ↔ (A i = true ∨ B i = true)))
    (hOrder : ∀ i j, i < n → j < n → A i = true → B j = true → i < j) :
    (List.range n).filter P = (List.range n).filter A ++ (List.range n).filter B := by
  induction n with
  | zero => simp
  | succ m ih =>
    have ihm := ih (fun i hi => hPAB i (by omega))
      (fun i j hi hj => hOrder i j (by omega) (by omega))
    rw [List.range_succ, List.filter_append, List.filter_append, List.filter_append, ihm]
    by_cases hA : A m = true
    · have hB : B m = false := by
        by_contra hB
        have := hOrder m m (by omega) (by omega) hA (by simpa using hB)
        omega
      have hP : P m = true := (hPAB m (by omega)).2 (Or.inl hA)
      have hBnil : (List.range m).filter B = [] := by
        rw [List.filter_eq_nil_iff]
        intro j hj
        simp only [List.mem_range] at hj
        intro hBj
        have := hOrder m j (by omega) (by omega) hA hBj
        omega
      simp [hP, hA, hB, hBnil]
    · by_cases hB : B m = true
      · have hP : P m = true := (hPAB m (by omega)).2 (Or.inr hB)
        simp [hP, hA, hB]
      · have hP : P m = false := by
          rcases hPm : P m with _ | _
          · rfl
          · rcases (hPAB m (by omega)).1 hPm with h | h
            · exact absurd h hA
            · exact absurd h hB
        simp [hP, hA, hB]

/-- Filtering a range for one value. -/
theorem filter_range_eq_single {n idx : Nat} (h : idx < n) :
    (List.range n).filter (fun i => decide (i = idx)) = [idx] := by
  induction n with
  | zero => omega
  | succ m ih =>
    rw [List.range_succ, List.filter_append]
    rcases Nat.lt_or_ge idx m with hlt | hge
    · rw [ih hlt]
      have : decide (m = idx) = false := by simp; omega
      simp [this]
    · have hidx : idx = m := by omega
      subst hidx
      have hnil : (List.range idx).filter (fun i => decide (i = idx)) = [] := by
        rw [List.filter_eq_nil_iff]
        intro j hj
        simp only [List.mem_range] at hj
        simp
        omega
      simp [hnil]

theorem matchesFrom_of_none {hay needle : List Nat} {start : Nat} (hne : needle ≠ [])
    (h : idxOfFrom hay needle start = none) : matchesFrom hay needle start = [] := by
  rw [matchesFrom, List.filter_eq_nil_iff]
  intro i _
  simp only [Bool.and_eq_true, decide_eq_true_eq, not_and]
  intro hs hocc
  have := idxOfFrom_none hne h i hs
  rw [this] at hocc
  exact Bool.false_ne_true hocc

theorem matchesFrom_of_some {hay needle : List Nat} {start idx : Nat} (hne : needle ≠ [])
    (h : idxOfFrom hay needle start = some idx) :
    matchesFrom hay needle start = idx :: matchesFrom hay needle (idx + 1) := by
  obtain ⟨hs, hocc, hmin⟩ := idxOfFrom_some h
  have hidxlt : idx < hay.length + 1 := by
    have := occB_le hne hocc
    omega
  have hsplit := filter_range_split (hay.length + 1)
    (fun i => decide (start ≤ i) && occB hay needle i)
    (fun i => decide (i = idx))
    (fun i => decide (idx + 1 ≤ i) && occB hay needle i)
    (fun i _ => by
      simp only [Bool.and_eq_true, decide_eq_true_eq]
      constructor
      · rintro ⟨his, hio⟩
        rcases Nat.lt_or_ge i idx with hlt | hge
        · have := hmin i his hlt
          rw [this] at hio
          exact absurd hio Bool.false_ne_true
        · rcases Nat.eq_or_lt_of_le hge with heq | hlt
          · exact Or.inl heq.symm
          · exact Or.inr ⟨by omega, hio⟩
      · rintro (heq | ⟨hgt, hio⟩)
        · subst heq; exact ⟨hs, hocc⟩
        · exact ⟨by omega, hio⟩)
    (fun i j _ _ hA hB => by
      simp only [Bool.and_eq_true, decide_eq_true_eq] at hA hB
      omega)
  rw [matchesFrom, hsplit, filter_range_eq_single hidxlt, matchesFrom]
  rfl

/-
### Keyword/hex search engine

`wholeHexScanAux` is the hex branch of `keywordSearch`'s in-memory path:

    let offset = 0;
    while (true) {
      const idx = content.indexOf(searchBuf, offset);
      if (idx === -1) break;
      hits.push(...);
      offset = idx + 1;
      if (hits.length > 500) break;
    }

The hit records carry only the matched offset here; the rendered context,
relative path and query string attached to each hit do not affect which
offsets are reported.
-/

def wholeHexScanAux (content needle : List Nat) : Nat → Nat → List Nat → List Nat
  | 0, _, hits => hits
  | fuel + 1, offset, hits =>
    match idxOfFrom content needle offset with
    | none => hits
    | some idx =>
      let hits' := hits ++ [idx]
      if 500 < hits'.length then hits'
      else wholeHexScanAux content needle fuel (idx + 1) hits'

/-- The whole-buffer (in-memory) hex search over one file, starting from an
empty hit list.  Fuel `content.length + 1` bounds the loop's own iteration
count (`offset` grows by at least 1 per iteration and never exceeds
`content.length`). -/
def wholeHexScan (content needle : List Nat) : List Nat :=
  wholeHexScanAux content needle (content.length + 1) 0 []

/-
`searchFileStreamingHex` translated.  The JS loop state is `globalOffset`
(`go`), `carry`, and the accumulated `hits`; `fin` marks that the loop has
exited.  One `hexStep` is one iteration of

    while (globalOffset < fileSize && hits.length < 50) {
      const readStart = Math.max(0, globalOffset - carry);
      const bytesRead = fs.readSync(fd, buf, 0, CHUNK_SIZE + overlap, readStart);
      if (bytesRead === 0) break;
      const chunk = buf.subarray(0, bytesRead);
      let pos = carry;
      while (pos < chunk.length - searchBuf.length + 1 && hits.length < 50) {
        const idx = chunk.indexOf(searchBuf, pos);
        if (idx === -1) break;
        hits.push({ ..., offset: readStart + idx, ... });
        pos = idx + 1;
      }
      globalOffset = readStart + bytesRead - overlap;
      carry = overlap;
    }

A positioned read of up to `CHUNK_SIZE + overlap` bytes at `readStart` is
`(file.drop readStart).take (chunkSize + overlap)`.  The source fixes
`chunkSize = 16 * 1024 * 1024` (`HEX_CHUNK` below); it is kept as a
parameter so the boundary behaviour can be exercised at small chunk sizes,
as the spec's testable property demands.  `globalOffset` can go negative in
JS exactly when `bytesRead < overlap`; it is then clamped to 0 by the next
`Math.max(0, globalOffset - carry)` while the loop guard `globalOffset <
fileSize` stays true, so truncated subtraction models it faithfully.
-/

/-- Inner window scan of `searchFileStreamingHex` (emits absolute offsets,
global hit cap 50 checked in the loop guard). -/
def hexInner (needle window : List Nat) (readStart : Nat) : Nat → Nat → List Nat → List Nat
  | 0, _, hits => hits
  | fuel + 1, pos, hits =>
    if pos + needle.length ≤ window.length ∧ hits.length < 50 then
      match idxOfFrom window needle pos with
      | none => hits
      | some idx =>
        hexInner needle window readStart fuel (idx + 1) (hits ++ [readStart + idx])
    else hits

/-- Loop state of `searchFileStreamingHex`. -/
structure HexStream where
  go : Nat
  carry : Nat
  hits : List Nat
  fin : Bool
deriving Repr, DecidableEq

/-- One iteration of `searchFileStreamingHex`'s outer loop. -/
def hexStep (chunkSize : Nat) (file needle : List Nat) (s : HexStream) : HexStream :=
  if s.fin then s
  else if s.go < file.length ∧ s.hits.length < 50 then
    let overlap := needle.length - 1
    let readStart := s.go - s.carry
    let window := (file.drop readStart).take (chunkSize + overlap)
    if window.length = 0 then { s with fin := true }
    else
      { go := readStart + window.length - overlap,
        carry := overlap,
        hits := hexInner needle window readStart (window.length + 1) s.carry s.hits,
        fin := false }
  else { s with fin := true }

def hexStreamInit : HexStream := ⟨0, 0, [], false⟩

/-- The state of `searchFileStreamingHex` after `n` outer-loop iterations
(the function's hit output is the `hits` component once the loop is done). -/
def searchFileStreamingHex (chunkSize : Nat) (file needle : List Nat) : Nat → HexStream
  | 0 => hexStreamInit
  | n + 1 => hexStep chunkSize file needle (searchFileStreamingHex chunkSize file needle n)

/-- The source's chunk size for the streaming hex search. -/
def HEX_CHUNK : Nat := 16 * 1024 * 1024

/-- All occurrences `i` of `needle` in `file` with `lo ≤ i` and
`i + needle.length ≤ hi`, in increasing order. -/
def rangeMatches (file needle : List Nat) (lo hi : Nat) : List Nat :=
  (List.range (file.length + 1)).filter
    (fun i => decide (lo ≤ i) && (occB file needle i && decide (i + needle.length ≤ hi)))

theorem occB_window {file needle : List Nat} (hne : needle ≠ []) (r Cw j : Nat) :
    occB ((file.drop r).take Cw) needle j
      = (occB file needle (r + j) && decide (j + needle.length ≤ min Cw (file.length - r))) := by
  have hn1 : 1 ≤ needle.length := by
    cases needle with
    | nil => exact absurd rfl hne
    | cons b bs => simp
  rw [occB, List.drop_take, startsWithB_take, occB_drop_add]
  by_cases ho : occB file needle (r + j) = true
  · have hb := occB_le hne ho
    simp only [ho, Bool.true_and]
    simp only [decide_eq_decide]
    omega
  · simp only [Bool.not_eq_true] at ho
    simp [ho]

theorem window_length (file : List Nat) (r Cw : Nat) :
    ((file.drop r).take Cw).length = min Cw (file.length - r) := by
  simp [List.length_take, List.length_drop]

theorem rangeMatches_nil_of_ge {file needle : List Nat} {lo hi : Nat} (hne : needle ≠ [])
    (h : hi < lo + needle.length) : rangeMatches file needle lo hi = [] := by
  rw [rangeMatches, List.filter_eq_nil_iff]
  intro i _
  simp only [Bool.and_eq_true, decide_eq_true_eq]
  rintro ⟨hlo, -, hhi⟩
  omega

theorem hexInner_spec {file needle : List Nat} (hne : needle ≠ []) (Cw r : Nat) :
    ∀ (fuel pos : Nat) (hits : List Nat),
      ((file.drop r).take Cw).length + 1 ≤ fuel + pos →
      hits.length +
        (rangeMatches file needle (r + pos) (r + ((file.drop r).take Cw).length)).length ≤ 50 →
      hexInner needle ((file.drop r).take Cw) r fuel pos hits
        = hits ++ rangeMatches file needle (r + pos) (r + ((file.drop r).take Cw).length) := by
  have hn1 : 1 ≤ needle.length := by
    cases needle with
    | nil => exact absurd rfl hne
    | cons b bs => simp
  intro fuel
  induction fuel with
  | zero =>
    intro pos hits hfuel hcap
    have hnil : rangeMatches file needle (r + pos)
        (r + ((file.drop r).take Cw).length) = [] :=
      rangeMatches_nil_of_ge hne (by omega)
    simp only [hexInner, hnil, List.append_nil]
  | succ f ih =>
    intro pos hits hfuel hcap
    have hLw : ((file.drop r).take Cw).length = min Cw (file.length - r) :=
      window_length file r Cw
    simp only [hexInner]
    by_cases hguard : pos + needle.length ≤ ((file.drop r).take Cw).length ∧ hits.length < 50
    · rw [if_pos hguard]
      rcases hidx : idxOfFrom ((file.drop r).take Cw) needle pos with _ | idx
      · -- no further occurrence in the window at or after pos
        have hnone := idxOfFrom_none hne hidx
        have hnil : rangeMatches file needle (r + pos)
            (r + ((file.drop r).take Cw).length) = [] := by
          rw [rangeMatches, List.filter_eq_nil_iff]
          intro i _
          simp only [Bool.and_eq_true, decide_eq_true_eq]
          rintro ⟨hlo, hio, hhi⟩
          have hwin := hnone (i - r) (by omega)
          rw [occB_window hne] at hwin
          have hri : r + (i - r) = i := by omega
          rw [hri] at hwin
          simp only [Bool.and_eq_false_iff] at hwin
          rcases hwin with hwin | hwin
          · rw [hio] at hwin; simp at hwin
          · simp only [decide_eq_false_iff_not] at hwin
            omega
        simp only [hnil, List.append_nil]
      · -- first occurrence in the window at or after pos is idx
        obtain ⟨hple, hwocc, hwmin⟩ := idxOfFrom_some hidx
        rw [occB_window hne] at hwocc
        simp only [Bool.and_eq_true, decide_eq_true_eq] at hwocc
        obtain ⟨hocc, hbound⟩ := hwocc
        have hridx_lt : r + idx < file.length + 1 := by
          have := occB_le hne hocc
          omega
        -- split the remaining matches at the head r + idx
        have hsplit := filter_range_split (file.length + 1)
          (fun i => decide (r + pos ≤ i) &&
            (occB file needle i && decide (i + needle.length ≤ r + ((file.drop r).take Cw).length)))
          (fun i => decide (i = r + idx))
          (fun i => decide (r + (idx + 1) ≤ i) &&
            (occB file needle i && decide (i + needle.length ≤ r + ((file.drop r).take Cw).length)))
          (fun i _ => by
            simp only [Bool.and_eq_true, decide_eq_true_eq]
            constructor
            · rintro ⟨hlo, hio, hhi⟩
              rcases Nat.lt_or_ge i (r + idx) with hlt | hge
              · exfalso
                have hwk := hwmin (i - r) (by omega) (by omega)
                rw [occB_window hne] at hwk
                have hri : r + (i - r) = i := by omega
                rw [hri] at hwk
                simp only [Bool.and_eq_false_iff] at hwk
                rcases hwk with hwk | hwk
                · rw [hio] at hwk; simp at hwk
                · simp only [decide_eq_false_iff_not] at hwk
                  omega
              · rcases Nat.eq_or_lt_of_le hge with heq | hlt
                · exact Or.inl heq.symm
                · exact Or.inr ⟨by omega, hio, hhi⟩
            · rintro (heq | ⟨hlo, hio, hhi⟩)
              · subst heq
                exact ⟨by omega, hocc, by omega⟩
              · exact ⟨by omega, hio, hhi⟩)
          (fun i j _ _ hA hB => by
            simp only [Bool.and_eq_true, decide_eq_true_eq] at hA hB
            omega)
        have hcons : rangeMatches file needle (r + pos)
              (r + ((file.drop r).take Cw).length)
            = (r + idx) :: rangeMatches file needle (r + (idx + 1))
              (r + ((file.drop r).take Cw).length) := by
          rw [rangeMatches, hsplit, filter_range_eq_single hridx_lt, rangeMatches]
          rfl
        rw [hcons] at hcap
        simp only [List.length_cons] at hcap
        have hrec := ih (idx + 1) (hits ++ [r + idx])
          (by omega)
          (by simp only [List.length_append, List.length_cons, List.length_nil]; omega)
        rw [hcons]
        simpa [List.append_assoc] using hrec
    · rw [if_neg hguard]
      rcases Decidable.not_and_iff_or_not.1 hguard with hpos | hcap50
      · have hnil : rangeMatches file needle (r + pos)
            (r + ((file.drop r).take Cw).length) = [] :=
          rangeMatches_nil_of_ge hne (by omega)
        simp only [hnil, List.append_nil]
      · have h50 : 50 ≤ hits.length := by omega
        have hnil : rangeMatches file needle (r + pos)
            (r + ((file.drop r).take Cw).length) = [] := by
          have hlen0 : (rangeMatches file needle (r + pos)
              (r + ((file.drop r).take Cw).length)).length = 0 := by omega
          exact List.length_eq_zero.1 hlen0
        simp only [hnil, List.append_nil]

theorem matchesFrom_nil_of_ge {content needle : List Nat} {pos : Nat} (hne : needle ≠ [])
    (h : content.length < pos + needle.length) : matchesFrom content needle pos = [] := by
  rw [matchesFrom, List.filter_eq_nil_iff]
  intro i _
  simp only [Bool.and_eq_true, decide_eq_true_eq, not_and]
  intro hlo hocc
  have := occB_le hne hocc
  omega

theorem wholeHexScanAux_spec {content needle : List Nat} (hne : needle ≠ []) :
    ∀ (fuel pos : Nat) (hits : List Nat),
      content.length + 1 ≤ fuel + pos →
      hits.length + (matchesFrom content needle pos).length ≤ 500 →
      wholeHexScanAux content needle fuel pos hits
        = hits ++ matchesFrom content needle pos := by
  have hn1 : 1 ≤ needle.length := by
    cases needle with
    | nil => exact absurd rfl hne
    | cons b bs => simp
  intro fuel
  induction fuel with
  | zero =>
    intro pos hits hfuel hcap
    have hnil : matchesFrom content needle pos = [] :=
      matchesFrom_nil_of_ge hne (by omega)
    simp [wholeHexScanAux, hnil]
  | succ f ih =>
    intro pos hits hfuel hcap
    simp only [wholeHexScanAux]
    rcases hidx : idxOfFrom content needle pos with _ | idx
    · rw [matchesFrom_of_none hne hidx]
      simp
    · have hcons := matchesFrom_of_some hne hidx
      obtain ⟨hple, hocc, -⟩ := idxOfFrom_some hidx
      rw [hcons] at hcap
      simp only [List.length_cons] at hcap
      have hnotcap : ¬ (500 < (hits ++ [idx]).length) := by
        simp only [List.length_append, List.length_cons, List.length_nil]
        omega
      simp only [hnotcap, if_false]
      have hidxle : idx + needle.length ≤ content.length := occB_le hne hocc
      have := ih (idx + 1) (hits ++ [idx])
        (by omega)
        (by simp only [List.length_append, List.length_cons, List.length_nil]; omega)
      rw [this, hcons]
      simp

/-- All occurrences of `needle` in `file` whose last byte lies strictly
below position `B` (i.e. `i + needle.length ≤ B`), in increasing order. -/
def boundedMatches (file needle : List Nat) (B : Nat) : List Nat :=
  (List.range (file.length + 1)).filter
    (fun i => occB file needle i && decide (i + needle.length ≤ B))

theorem boundedMatches_nil_small {file needle : List Nat} {B : Nat}
    (h : B < needle.length) : boundedMatches file needle B = [] := by
  rw [boundedMatches, List.filter_eq_nil_iff]
  intro i _
  simp only [Bool.and_eq_true, decide_eq_true_eq]
  rintro ⟨-, hB⟩
  omega

theorem boundedMatches_congr {file needle : List Nat} {B1 B2 : Nat}
    (h : ∀ i, occB file needle i = true →
      (i + needle.length ≤ B1 ↔ i + needle.length ≤ B2)) :
    boundedMatches file needle B1 = boundedMatches file needle B2 := by
  rw [boundedMatches, boundedMatches]
  apply List.filter_congr
  intro i _
  by_cases ho : occB file needle i = true
  · simp only [ho, Bool.true_and, decide_eq_decide]
    exact h i ho
  · simp only [Bool.not_eq_true] at ho
    simp [ho]

theorem boundedMatches_full {file needle : List Nat} {B : Nat} (hne : needle ≠ [])
    (h : file.length ≤ B) :
    boundedMatches file needle B = matchesFrom file needle 0 := by
  rw [boundedMatches, matchesFrom]
  apply List.filter_congr
  intro i _
  by_cases ho : occB file needle i = true
  · have := occB_le hne ho
    simp only [ho, Bool.true_and, Bool.and_true]
    have h1 : decide (i + needle.length ≤ B) = true := by
      simp only [decide_eq_true_eq]; omega
    have h2 : decide (0 ≤ i) = true := by simp
    rw [h1, h2]
  · simp only [Bool.not_eq_true] at ho
    simp [ho]

theorem boundedMatches_length_le {file needle : List Nat} (B : Nat) :
    (boundedMatches file needle B).length ≤ (matchesFrom file needle 0).length := by
  apply filter_length_mono
  intro i _
  simp only [Bool.and_eq_true, decide_eq_true_eq]
  rintro ⟨ho, -⟩
  exact ⟨by omega, ho⟩

/-- The streaming window's freshly emitted matches extend the previously
accumulated bounded matches to the new bound. -/
theorem boundedMatches_append {file needle : List Nat} (hne : needle ≠ []) {bl lo hi : Nat}
    (h1 : bl ≤ hi ∨ bl < needle.length)
    (h2 : ∀ i, occB file needle i = true → i + needle.length ≤ hi →
      bl < i + needle.length → lo ≤ i)
    (h3 : bl < lo + needle.length) :
    boundedMatches file needle hi
      = boundedMatches file needle bl ++ rangeMatches file needle lo hi := by
  have hsplit := filter_range_split (file.length + 1)
    (fun i => occB file needle i && decide (i + needle.length ≤ hi))
    (fun i => occB file needle i && decide (i + needle.length ≤ bl))
    (fun i => decide (lo ≤ i) && (occB file needle i && decide (i + needle.length ≤ hi)))
    (fun i _ => by
      simp only [Bool.and_eq_true, decide_eq_true_eq]
      constructor
      · rintro ⟨ho, hB⟩
        rcases le_or_lt (i + needle.length) bl with hle | hgt
        · exact Or.inl ⟨ho, hle⟩
        · exact Or.inr ⟨h2 i ho hB hgt, ho, hB⟩
      · rintro (⟨ho, hB⟩ | ⟨hlo, ho, hB⟩)
        · refine ⟨ho, ?_⟩
          rcases h1 with h1 | h1
          · omega
          · exfalso; omega
        · exact ⟨ho, hB⟩)
    (fun i j _ _ hA hB => by
      simp only [Bool.and_eq_true, decide_eq_true_eq] at hA hB
      omega)
  rw [boundedMatches, hsplit, boundedMatches, rangeMatches]

/-- Invariant of `searchFileStreamingHex`'s running (not yet exited) state:
`hits` holds exactly the occurrences scanned past so far, `carry` is 0 only
in the initial state, and the cursor never moves past
`fileLength - overlap`. -/
def HexCore (file needle : List Nat) (s : HexStream) : Prop :=
  s.hits = boundedMatches file needle (s.go + s.carry) ∧
  ((s.carry = 0 ∧ s.go = 0) ∨
   (s.carry = needle.length - 1 ∧ s.go ≤ file.length - (needle.length - 1) ∧
     (needle.length - 1 ≤ s.go ∨ s.go = file.length - (needle.length - 1))))

/-- Every reachable state of the streaming search: still looping with the
core invariant, or exited carrying exactly the whole-buffer match set. -/
def HexState2 (file needle : List Nat) (s : HexStream) : Prop :=
  (s.fin = false ∧ HexCore file needle s) ∨
  (s.fin = true ∧ s.hits = matchesFrom file needle 0)

theorem hexStep_preserve {Cs : Nat} {file needle : List Nat} (hne : needle ≠ [])
    (hCs : needle.length ≤ Cs) (hcap : (matchesFrom file needle 0).length < 50)
    {s : HexStream} (hfin : s.fin = false) (hcore : HexCore file needle s) :
    HexState2 file needle (hexStep Cs file needle s) ∧
      ((hexStep Cs file needle s).fin = true ∨
        s.go + 1 ≤ (hexStep Cs file needle s).go ∨
        (hexStep Cs file needle s).go = file.length - (needle.length - 1)) := by
  have hn1 : 1 ≤ needle.length := by
    cases needle with
    | nil => exact absurd rfl hne
    | cons b bs => simp
  obtain ⟨go, carry, hits, fin⟩ := s
  simp only at hfin
  subst hfin
  obtain ⟨hhits, hside⟩ := hcore
  simp only [HexCore] at hhits hside
  have hlen50 : hits.length < 50 := by
    rw [hhits]
    calc (boundedMatches file needle (go + carry)).length
        ≤ (matchesFrom file needle 0).length := boundedMatches_length_le _
      _ < 50 := hcap
  have hsidefacts : (carry = 0 ∧ go = 0) ∨
      (carry = needle.length - 1 ∧ go ≤ file.length - (needle.length - 1) ∧
        (needle.length - 1 ≤ go ∨ go = file.length - (needle.length - 1))) := hside
  by_cases hguard : go < file.length ∧ hits.length < 50
  · -- the loop body runs
    have hLw := window_length file (go - carry) (Cs + (needle.length - 1))
    have hwpos : ¬ (((file.drop (go - carry)).take
        (Cs + (needle.length - 1))).length = 0) := by
      rw [hLw]
      have hrlt : go - carry < file.length := by omega
      omega
    have hstep : hexStep Cs file needle ⟨go, carry, hits, false⟩ =
        { go := (go - carry) +
            ((file.drop (go - carry)).take (Cs + (needle.length - 1))).length -
            (needle.length - 1),
          carry := needle.length - 1,
          hits := hexInner needle
            ((file.drop (go - carry)).take (Cs + (needle.length - 1)))
            (go - carry)
            (((file.drop (go - carry)).take (Cs + (needle.length - 1))).length + 1)
            carry hits,
          fin := false } := by
      rw [hexStep, if_neg (by simp), if_pos hguard, if_neg hwpos]
    -- the merge of old hits with the window's fresh matches
    have hmerge : boundedMatches file needle ((go - carry) +
          ((file.drop (go - carry)).take (Cs + (needle.length - 1))).length)
        = boundedMatches file needle (go + carry) ++
          rangeMatches file needle ((go - carry) + carry)
            ((go - carry) +
              ((file.drop (go - carry)).take (Cs + (needle.length - 1))).length) := by
      apply boundedMatches_append hne
      · -- old bound fits under the new one, or is vacuously small
        rcases hsidefacts with ⟨hc0, hg0⟩ | ⟨hc, hgle, hgor⟩
        · right; omega
        · rcases hgor with hle | heq
          · left; omega
          · rcases le_or_lt (needle.length - 1) file.length with hoN | hoN
            · left; omega
            · right; omega
      · -- matches past the old bound start at or after the suppression point
        intro i hio hhi hgt
        have hiN := occB_le hne hio
        rcases hsidefacts with ⟨hc0, hg0⟩ | ⟨hc, hgle, hgor⟩
        · omega
        · rcases hgor with hle | heq
          · omega
          · omega
      · -- ordering between retained and fresh matches
        rcases hsidefacts with ⟨hc0, hg0⟩ | ⟨hc, hgle, hgor⟩
        · omega
        · omega
    have hinner := @hexInner_spec file needle hne
      (Cs + (needle.length - 1)) (go - carry)
      (((file.drop (go - carry)).take (Cs + (needle.length - 1))).length + 1)
      carry hits (by omega)
      (by
        rw [hhits]
        have hlenmerge := congrArg List.length hmerge
        rw [List.length_append] at hlenmerge
        have hmono := @boundedMatches_length_le file needle
          ((go - carry) +
            ((file.drop (go - carry)).take (Cs + (needle.length - 1))).length)
        omega)
    constructor
    · -- the new state satisfies the core invariant
      left
      rw [hstep]
      refine ⟨rfl, ?_, ?_⟩
      · -- hits of the new state
        simp only
        rw [hinner, hhits, ← hmerge]
        apply boundedMatches_congr
        intro i hio
        have hiN := occB_le hne hio
        constructor <;> intro <;> omega
      · -- side facts for the new cursor
        right
        refine ⟨rfl, ?_, ?_⟩
        · simp only
          omega
        · simp only
          rcases Nat.le_total (Cs + (needle.length - 1)) (file.length - (go - carry))
            with hmin | hmin
          · left
            omega
          · right
            omega
    · -- progress
      right
      rw [hstep]
      simp only
      rcases Nat.le_total (Cs + (needle.length - 1)) (file.length - (go - carry))
        with hmin | hmin
      · -- a full chunk was read: the cursor advances
        left
        rcases hsidefacts with ⟨hc0, hg0⟩ | ⟨hc, hgle, hgor⟩
        · omega
        · rcases hgor with hle | heq
          · omega
          · -- go = fileLength - overlap below the overlap forces a short read
            omega
      · -- the read was capped by the end of the file
        right
        omega
  · -- the loop guard fails: the state exits with the full match set
    have hstep : hexStep Cs file needle ⟨go, carry, hits, false⟩ =
        { go := go, carry := carry, hits := hits, fin := true } := by
      rw [hexStep, if_neg (by simp), if_neg hguard]
    have hgoN : file.length ≤ go := by
      rcases Decidable.not_and_iff_or_not.1 hguard with h | h
      · omega
      · omega
    constructor
    · right
      rw [hstep]
      refine ⟨rfl, ?_⟩
      simp only
      rw [hhits]
      apply boundedMatches_full hne
      rcases hsidefacts with ⟨hc0, hg0⟩ | ⟨hc, hgle, hgor⟩ <;> omega
    · left
      rw [hstep]

/-- Iterating the outer loop step-first (auxiliary view of the run). -/
def hexIter (Cs : Nat) (file needle : List Nat) : Nat → HexStream → HexStream
  | 0, s => s
  | n + 1, s => hexIter Cs file needle n (hexStep Cs file needle s)

theorem hexIter_step_comm (Cs : Nat) (file needle : List Nat) :
    ∀ (n : Nat) (s : HexStream),
      hexIter Cs file needle n (hexStep Cs file needle s)
        = hexStep Cs file needle (hexIter Cs file needle n s) := by
  intro n
  induction n with
  | zero => intro s; rfl
  | succ m ih =>
    intro s
    show hexIter Cs file needle m (hexStep Cs file needle (hexStep Cs file needle s))
      = hexStep Cs file needle (hexIter Cs file needle m (hexStep Cs file needle s))
    exact ih (hexStep Cs file needle s)

theorem searchFileStreamingHex_eq_iter (Cs : Nat) (file needle : List Nat) :
    ∀ n, searchFileStreamingHex Cs file needle n
      = hexIter Cs file needle n hexStreamInit := by
  intro n
  induction n with
  | zero => rfl
  | succ m ih =>
    show hexStep Cs file needle (searchFileStreamingHex Cs file needle m)
      = hexIter Cs file needle m (hexStep Cs file needle hexStreamInit)
    rw [ih, hexIter_step_comm]

theorem hexStep_fin {Cs : Nat} {file needle : List Nat} {s : HexStream}
    (h : s.fin = true) : hexStep Cs file needle s = s := by
  rw [hexStep, if_pos h]

theorem hexIter_hits {Cs : Nat} {file needle : List Nat} (hne : needle ≠ [])
    (hCs : needle.length ≤ Cs) (hcap : (matchesFrom file needle 0).length < 50) :
    ∀ (d : Nat) (s : HexStream), HexState2 file needle s →
      (file.length - (needle.length - 1) ≤ s.go + d ∨ s.fin = true) →
      (hexIter Cs file needle d s).hits = matchesFrom file needle 0 := by
  have hn1 : 1 ≤ needle.length := by
    cases needle with
    | nil => exact absurd rfl hne
    | cons b bs => simp
  intro d
  induction d with
  | zero =>
    intro s hstate hreach
    rcases hstate with ⟨hfin, hhits, hside⟩ | ⟨hfin, hhits⟩
    · -- still looping but the cursor has reached its final value
      have hgo : file.length - (needle.length - 1) ≤ s.go := by
        rcases hreach with h | h
        · simpa using h
        · rw [hfin] at h; exact absurd h (by simp)
      rcases hside with ⟨hc0, hg0⟩ | ⟨hc, hgle, hgor⟩
      · -- initial state: the file is no longer than the overlap
        show s.hits = _
        rw [hhits, hc0, hg0]
        rw [boundedMatches_nil_small (by omega)]
        rw [matchesFrom_nil_of_ge hne (by omega)]
      · show s.hits = _
        rw [hhits, hc]
        apply boundedMatches_full hne
        omega
    · exact hhits
  | succ d ih =>
    intro s hstate hreach
    show (hexIter Cs file needle d (hexStep Cs file needle s)).hits = _
    rcases hstate with ⟨hfin, hcore⟩ | ⟨hfin, hhits⟩
    · obtain ⟨hstate', hprog⟩ := hexStep_preserve hne hCs hcap hfin hcore
      apply ih _ hstate'
      rcases hprog with hf | hgo | hgo
      · right; exact hf
      · left
        rcases hreach with h | h
        · omega
        · rw [hfin] at h; exact absurd h (by simp)
      · left; omega
    · rw [hexStep_fin hfin]
      apply ih _ (Or.inr ⟨hfin, hhits⟩)
      right; exact hfin

/-- The whole-buffer hex scan reports exactly the occurrence list when its
own 500-hit cap is not reached. -/
theorem wholeHexScan_eq_matchesFrom {content needle : List Nat} (hne : needle ≠ [])
    (hcap : (matchesFrom content needle 0).length ≤ 500) :
    wholeHexScan content needle = matchesFrom content needle 0 := by
  rw [wholeHexScan, wholeHexScanAux_spec hne (content.length + 1) 0 [] (by omega)
    (by simpa using hcap)]
  simp

/--
C1 (amended): for every byte buffer and every non-empty needle *no longer
than the chunk size* (the source fixes `chunkSize = 16 MiB`), when no hit
cap is reached (fewer than 50 occurrences in total — the streaming path's
own cap), the streaming chunked hex search accumulates exactly the same,
order-preserved list of match offsets as the single-pass whole-buffer
search, each boundary-straddling match reported exactly once.  The hit
list has stabilised once the scan cursor reaches its final value, by fuel
`file.length + 2` at the latest.  The needle-vs-chunk bound is necessary:
`C1_counterexample` shows the equivalence fails when the needle exceeds
the chunk.
-/
theorem C1_streaming_hex_equals_whole_buffer (chunkSize : Nat) (file needle : List Nat)
    (h1 : needle ≠ []) (h2 : needle.length ≤ chunkSize)
    (h3 : (matchesFrom file needle 0).length < 50) :
    (searchFileStreamingHex chunkSize file needle (file.length + 2)).hits
      = wholeHexScan file needle := by
  have hn1 : 1 ≤ needle.length := by
    cases needle with
    | nil => exact absurd rfl h1
    | cons b bs => simp
  rw [searchFileStreamingHex_eq_iter]
  rw [wholeHexScan_eq_matchesFrom h1 (by omega)]
  apply hexIter_hits h1 h2 h3
  · left
    refine ⟨rfl, ?_, ?_⟩
    · show ([] : List Nat) = boundedMatches file needle (0 + 0)
      rw [boundedMatches_nil_small (by omega)]
    · left; exact ⟨rfl, rfl⟩
  · left
    show file.length - (needle.length - 1) ≤ 0 + (file.length + 2)
    omega

theorem C1_witness :
    (searchFileStreamingHex 4 [7, 8, 0, 7, 8, 7, 8, 9, 7, 8] [7, 8]
        (([7, 8, 0, 7, 8, 7, 8, 9, 7, 8] : List Nat).length + 2)).hits
      = wholeHexScan [7, 8, 0, 7, 8, 7, 8, 9, 7, 8] [7, 8]
    ∧ wholeHexScan [7, 8, 0, 7, 8, 7, 8, 9, 7, 8] [7, 8] = [0, 3, 5, 8] :=
  ⟨C1_streaming_hex_equals_whole_buffer 4 _ _ (by decide) (by decide) (by decide),
    by decide⟩

/--
C1 (counterexample): for a needle longer than the chunk the equivalence
fails even though the hit cap is untouched.  With chunk 2, needle
`01 01 01 01` and the 8-byte file `00 00 01 01 01 01 00 00`, the
whole-buffer scan reports the single match at offset 2 (1 match, far
below the 50-hit cap), but the streaming scanner reports nothing: after
the first read its state is `⟨go 2, carry 3, hits [], fin false⟩`, a
fixed point of the loop step (`readStart = go − carry` falls back to 0
and the capped window never advances the cursor), so at every fuel its
hit list is empty and the loop never finishes.
-/
theorem C1_counterexample :
    wholeHexScan [0, 0, 1, 1, 1, 1, 0, 0] [1, 1, 1, 1] = [2] ∧
    (searchFileStreamingHex 2 [0, 0, 1, 1, 1, 1, 0, 0] [1, 1, 1, 1]
        (([0, 0, 1, 1, 1, 1, 0, 0] : List Nat).length + 2)).hits = [] ∧
    searchFileStreamingHex 2 [0, 0, 1, 1, 1, 1, 0, 0] [1, 1, 1, 1]
        (([0, 0, 1, 1, 1, 1, 0, 0] : List Nat).length + 2) = ⟨2, 3, [], false⟩ ∧
    hexStep 2 [0, 0, 1, 1, 1, 1, 0, 0] [1, 1, 1, 1] ⟨2, 3, [], false⟩
        = ⟨2, 3, [], false⟩ ∧
    (matchesFrom [0, 0, 1, 1, 1, 1, 0, 0] [1, 1, 1, 1] 0).length = 1 ∧
    ([1, 1, 1, 1] : List Nat) ≠ [] := by
  decide

/-
### C3: the streaming search loop does not terminate

With any needle of length ≥ 2, once a read is capped by the end of the
file the cursor update `globalOffset = readStart + bytesRead - overlap`
leaves `globalOffset` stuck at `fileSize - overlap < fileSize`; the next
read starts at `fileSize - 2·overlap`, returns `2·overlap ≠ 0` bytes, and
reproduces the same state, so neither exit condition (`read returns 0` or
`hits cap`) is ever met when the file has no further matches.  Below the
fixed point is exhibited on a concrete 4-byte file with the source's own
chunk size.
-/

/-- The stuck state the streaming search falls into on the 4-byte file. -/
def c3StuckState : HexStream := ⟨3, 1, [], false⟩

theorem c3_fixed_point :
    hexStep HEX_CHUNK [0, 0, 0, 0] [170, 187] c3StuckState = c3StuckState := by
  decide

theorem c3_reaches_stuck :
    searchFileStreamingHex HEX_CHUNK [0, 0, 0, 0] [170, 187] 2 = c3StuckState := by
  decide

theorem c3_stuck_forever (n : Nat) :
    searchFileStreamingHex HEX_CHUNK [0, 0, 0, 0] [170, 187] (n + 2) = c3StuckState := by
  induction n with
  | zero => exact c3_reaches_stuck
  | succ m ih =>
    show hexStep HEX_CHUNK [0, 0, 0, 0] [170, 187]
      (searchFileStreamingHex HEX_CHUNK [0, 0, 0, 0] [170, 187] (m + 2)) = _
    rw [ih, c3_fixed_point]

/--
C3 (code bug): the streaming chunked search loop does **not** terminate.
On the 4-byte all-zero file with the 2-byte needle `AA BB` (no match, so
no cap is ever reached) and the source's own chunk size of 16 MiB, the
loop never exits: after two iterations the state repeats forever with the
cursor stuck at `fileSize - overlap = 3 < 4`, every further read returning
2 bytes.  The spec's claim that the loop stops when a read returns 0 bytes
or a result cap is reached therefore fails on the code: neither condition
ever fires.
-/
theorem C3_streaming_search_loop_never_exits (n : Nat) :
    (searchFileStreamingHex HEX_CHUNK [0, 0, 0, 0] [170, 187] n).fin = false ∧
      searchFileStreamingHex HEX_CHUNK [0, 0, 0, 0] [170, 187] (n + 2)
        = searchFileStreamingHex HEX_CHUNK [0, 0, 0, 0] [170, 187] 2 := by
  constructor
  · match n with
    | 0 => decide
    | 1 => decide
    | m + 2 => rw [c3_stuck_forever m]; rfl
  · rw [c3_stuck_forever n, c3_reaches_stuck]

/-
### Signature registry & file carver (`carveMedia`, `carveMediaStreaming`)

Artifacts carry their signature type, absolute start offset and byte size;
the written file name is derived from the offset and does not affect which
artifacts are emitted.
-/

inductive CarveType where
  | jpg
  | png
deriving Repr, DecidableEq

structure CarveRec where
  ctype : CarveType
  offset : Nat
  size : Nat
deriving Repr, DecidableEq

def JPG_HEADER : List Nat := [255, 216, 255]
def JPG_FOOTER : List Nat := [255, 217]
def PNG_HEADER : List Nat := [137, 80, 78, 71, 13, 10, 26, 10]
def PNG_FOOTER : List Nat := [73, 69, 78, 68, 174, 66, 96, 130]

/--
JPG pass of `carveMedia`'s in-memory path:

    let offset = 0;
    while (offset < content.length - 3) {
      if (content[offset] === 0xFF && content[offset+1] === 0xD8 && content[offset+2] === 0xFF) {
        let end = content.indexOf(JPG_FOOTER, offset + 3);
        if (end !== -1) {
          end += 2;
          const sz = end - offset;
          if (sz > 100 && sz < 50 * 1024 * 1024) { ...push {jpg, offset, sz}... }
          offset = end;
        } else { offset++; }
      } else { offset++; }
      if (results.length > 500) break;
    }
-/
def carveJpgAux (content : List Nat) : Nat → Nat → List CarveRec → List CarveRec
  | 0, _, results => results
  | fuel + 1, offset, results =>
    if offset + 4 ≤ content.length then
      if occB content JPG_HEADER offset then
        match idxOfFrom content JPG_FOOTER (offset + 3) with
        | some e =>
          let sz := e + 2 - offset
          let results' := if 100 < sz ∧ sz < 50 * 1024 * 1024
            then results ++ [⟨CarveType.jpg, offset, sz⟩] else results
          if 500 < results'.length then results'
          else carveJpgAux content fuel (e + 2) results'
        | none =>
          if 500 < results.length then results
          else carveJpgAux content fuel (offset + 1) results
      else
        if 500 < results.length then results
        else carveJpgAux content fuel (offset + 1) results
    else results

/-- PNG pass of `carveMedia`'s in-memory path (same loop shape, found via
`indexOf` on the header). -/
def carvePngAux (content : List Nat) : Nat → Nat → List CarveRec → List CarveRec
  | 0, _, results => results
  | fuel + 1, offset, results =>
    if offset + 9 ≤ content.length then
      match idxOfFrom content PNG_HEADER offset with
      | none => results
      | some m =>
        match idxOfFrom content PNG_FOOTER (m + 8) with
        | some e =>
          let sz := e + 8 - m
          let results' := if 100 < sz ∧ sz < 50 * 1024 * 1024
            then results ++ [⟨CarveType.png, m, sz⟩] else results
          if 500 < results'.length then results'
          else carvePngAux content fuel (e + 8) results'
        | none =>
          if 500 < results.length then results
          else carvePngAux content fuel (m + 1) results
    else results

/-- The whole-file (in-memory, `< 512 MB`) carve path: the JPG pass then the
PNG pass, accumulating into one shared result list. -/
def carveMedia (content : List Nat) : List CarveRec :=
  carvePngAux content (content.length + 1) 0
    (carveJpgAux content (content.length + 1) 0 [])

/-
### Streaming carve path (`carveMediaStreaming`)

    const CHUNK_SIZE = 32 * 1024 * 1024;
    const OVERLAP = 64 * 1024;
    while (globalOffset < fileSize && results.length < 200) {
      const readPos = Math.max(0, globalOffset);
      const bytesRead = fs.readSync(fd, buf, 0, CHUNK_SIZE + OVERLAP, readPos);
      if (bytesRead === 0) break;
      const chunk = buf.subarray(0, bytesRead);
      let pos = 0;
      while (pos < chunk.length - 3 && results.length < 200) {
        ...jpg attempt, else png attempt, else pos++...
      }
      globalOffset += CHUNK_SIZE;
    }

No open-match state survives `globalOffset += CHUNK_SIZE`: a header whose
footer lies beyond the current chunk window is forgotten.  Chunk and
overlap sizes are parameters so the behaviour is demonstrable on small
inputs; the source fixes them to 32 MiB / 64 KiB.
-/

/-- PNG attempt of the streaming inner loop at position `pos`: returns the
next position and result list. -/
def carveStreamPng (chunk : List Nat) (readPos pos : Nat) (rs : List CarveRec) :
    Nat × List CarveRec :=
  if pos + 8 < chunk.length ∧ occB chunk PNG_HEADER pos then
    match idxOfFrom chunk PNG_FOOTER (pos + 8) with
    | some e =>
      if e - pos < 50 * 1024 * 1024 then
        (e + 8, if 100 < e + 8 - pos then rs ++ [⟨CarveType.png, readPos + pos, e + 8 - pos⟩] else rs)
      else (pos + 1, rs)
    | none => (pos + 1, rs)
  else (pos + 1, rs)

/-- One streaming inner-loop iteration: the JPG attempt, falling through to
the PNG attempt (then `pos++`). -/
def carveStreamIterate (chunk : List Nat) (readPos pos : Nat) (rs : List CarveRec) :
    Nat × List CarveRec :=
  if occB chunk JPG_HEADER pos then
    match idxOfFrom chunk JPG_FOOTER (pos + 3) with
    | some e =>
      if e - pos < 50 * 1024 * 1024 then
        (e + 2, if 100 < e + 2 - pos then rs ++ [⟨CarveType.jpg, readPos + pos, e + 2 - pos⟩] else rs)
      else carveStreamPng chunk readPos pos rs
    | none => carveStreamPng chunk readPos pos rs
  else carveStreamPng chunk readPos pos rs

/-- The streaming inner loop over one chunk window. -/
def carveStreamInner (chunk : List Nat) (readPos : Nat) : Nat → Nat → List CarveRec → List CarveRec
  | 0, _, rs => rs
  | fuel + 1, pos, rs =>
    if pos + 4 ≤ chunk.length ∧ rs.length < 200 then
      let pr := carveStreamIterate chunk readPos pos rs
      carveStreamInner chunk readPos fuel pr.1 pr.2
    else rs

/-- The streaming outer loop: scan the window read at `go`, then advance the
cursor by a full chunk (the overlap bytes are re-read by the next window). -/
def carveMediaStreaming (chunkSize overlapSize : Nat) (file : List Nat) :
    Nat → Nat → List CarveRec → List CarveRec
  | 0, _, rs => rs
  | fuel + 1, go, rs =>
    if go < file.length ∧ rs.length < 200 then
      let chunk := (file.drop go).take (chunkSize + overlapSize)
      if chunk.length = 0 then rs
      else carveMediaStreaming chunkSize overlapSize file fuel (go + chunkSize)
        (carveStreamInner chunk go (chunk.length + 1) 0 rs)
    else rs

/-- The streaming carve of a whole file (fuel `file.length + 1` dominates
the loop's `fileSize / CHUNK_SIZE` iterations for any `chunkSize ≥ 1`). -/
def carveMediaStreamingRun (chunkSize overlapSize : Nat) (file : List Nat) : List CarveRec :=
  carveMediaStreaming chunkSize overlapSize file (file.length + 1) 0 []

/-- The source's chunk and overlap constants for the streaming carve. -/
def CARVE_CHUNK : Nat := 32 * 1024 * 1024

def CARVE_OVERLAP : Nat := 64 * 1024

/-- Input demonstrating the streaming-carve boundary defect: a JPEG whose
header starts at offset 0 and whose footer sits at offset 102, past the
20-byte window (`chunkSize 16 + overlap 4`) that contains the header. -/
def c2File : List Nat :=
  [255, 216, 255] ++ List.replicate 99 0 ++ [255, 217] ++ List.replicate 16 0

/--
C2 (code bug): the streaming carve path drops an embedded artifact whose
footer lies beyond the read chunk that contains its header, instead of
keeping the pending header as open-match state until `maxSize` bytes have
been scanned.  On `c2File` (120 bytes, one 104-byte JPEG at offset 0 whose
footer at 102 lies past the first window `[0, 20)`), the streaming path
with chunk 16 / overlap 4 carves nothing, while the whole-buffer path
carves the artifact; the spec itself flags this as a defect to fix.  The
defect is structural (no state crosses `globalOffset += CHUNK_SIZE`), so
it is independent of the source's 32 MiB / 64 KiB constants, which cannot
be exercised on a concretely evaluable input.
-/
theorem C2_streaming_carve_drops_boundary_artifact :
    carveMediaStreamingRun 16 4 c2File = [] ∧
      carveMedia c2File = [⟨CarveType.jpg, 0, 104⟩] ∧
      occB c2File JPG_HEADER 0 = true ∧
      idxOfFrom c2File JPG_FOOTER 3 = some 102 ∧
      16 + 4 < 102 + JPG_FOOTER.length := by
  decide

theorem carveJpgAux_size (content : List Nat) :
    ∀ (fuel offset : Nat) (rs : List CarveRec),
      (∀ a ∈ rs, 100 < a.size) →
      ∀ a ∈ carveJpgAux content fuel offset rs, 100 < a.size := by
  intro fuel
  induction fuel with
  | zero => intro offset rs hrs a ha; exact hrs a ha
  | succ f ih =>
    intro offset rs hrs a ha
    by_cases h1 : offset + 4 ≤ content.length
    · by_cases hhd : occB content JPG_HEADER offset = true
      · rcases heq : idxOfFrom content JPG_FOOTER (offset + 3) with _ | e
        · simp only [carveJpgAux, h1, hhd, heq, if_true] at ha
          by_cases hcap : 500 < rs.length
          · simp only [hcap, if_true] at ha
            exact hrs a ha
          · simp only [hcap, if_false] at ha
            exact ih (offset + 1) rs hrs a ha
        · simp only [carveJpgAux, h1, hhd, heq, if_true] at ha
          by_cases hP : 100 < e + 2 - offset ∧ e + 2 - offset < 50 * 1024 * 1024
          · have hnew : ∀ b ∈ rs ++ [(⟨CarveType.jpg, offset, e + 2 - offset⟩ : CarveRec)],
                100 < b.size := by
              intro b hb
              rcases List.mem_append.1 hb with hb | hb
              · exact hrs b hb
              · simp only [List.mem_singleton] at hb
                subst hb
                exact hP.1
            rw [if_pos hP] at ha
            by_cases hcap : 500 < (rs ++ [(⟨CarveType.jpg, offset, e + 2 - offset⟩ : CarveRec)]).length
            · rw [if_pos hcap] at ha
              exact hnew a ha
            · rw [if_neg hcap] at ha
              exact ih (e + 2) _ hnew a ha
          · rw [if_neg hP] at ha
            by_cases hcap : 500 < rs.length
            · simp only [hcap, if_true] at ha
              exact hrs a ha
            · simp only [hcap, if_false] at ha
              exact ih (e + 2) rs hrs a ha
      · simp only [carveJpgAux, h1, if_true] at ha
        rw [if_neg hhd] at ha
        by_cases hcap : 500 < rs.length
        · simp only [hcap, if_true] at ha
          exact hrs a ha
        · simp only [hcap, if_false] at ha
          exact ih (offset + 1) rs hrs a ha
    · simp only [carveJpgAux, h1, if_false] at ha
      exact hrs a ha

theorem carvePngAux_size (content : List Nat) :
    ∀ (fuel offset : Nat) (rs : List CarveRec),
      (∀ a ∈ rs, 100 < a.size) →
      ∀ a ∈ carvePngAux content fuel offset rs, 100 < a.size := by
  intro fuel
  induction fuel with
  | zero => intro offset rs hrs a ha; exact hrs a ha
  | succ f ih =>
    intro offset rs hrs a ha
    by_cases h1 : offset + 9 ≤ content.length
    · rcases hm : idxOfFrom content PNG_HEADER offset with _ | m
      · simp only [carvePngAux, h1, hm, if_true] at ha
        exact hrs a ha
      · rcases heq : idxOfFrom content PNG_FOOTER (m + 8) with _ | e
        · simp only [carvePngAux, h1, hm, heq, if_true] at ha
          by_cases hcap : 500 < rs.length
          · simp only [hcap, if_true] at ha
            exact hrs a ha
          · simp only [hcap, if_false] at ha
            exact ih (m + 1) rs hrs a ha
        · simp only [carvePngAux, h1, hm, heq, if_true] at ha
          by_cases hP : 100 < e + 8 - m ∧ e + 8 - m < 50 * 1024 * 1024
          · have hnew : ∀ b ∈ rs ++ [(⟨CarveType.png, m, e + 8 - m⟩ : CarveRec)],
                100 < b.size := by
              intro b hb
              rcases List.mem_append.1 hb with hb | hb
              · exact hrs b hb
              · simp only [List.mem_singleton] at hb
                subst hb
                exact hP.1
            rw [if_pos hP] at ha
            by_cases hcap : 500 < (rs ++ [(⟨CarveType.png, m, e + 8 - m⟩ : CarveRec)]).length
            · rw [if_pos hcap] at ha
              exact hnew a ha
            · rw [if_neg hcap] at ha
              exact ih (e + 8) _ hnew a ha
          · rw [if_neg hP] at ha
            by_cases hcap : 500 < rs.length
            · simp only [hcap, if_true] at ha
              exact hrs a ha
            · simp only [hcap, if_false] at ha
              exact ih (e + 8) rs hrs a ha
    · simp only [carvePngAux, h1, if_false] at ha
      exact hrs a ha

/-- If no JPG header occurs at or after `offset`, the JPG pass adds
nothing from there on. -/
theorem carveJpgAux_no_header (content : List Nat) :
    ∀ (fuel offset : Nat) (rs : List CarveRec),
      (∀ i, offset ≤ i → occB content JPG_HEADER i = false) →
      rs.length ≤ 500 →
      carveJpgAux content fuel offset rs = rs := by
  intro fuel
  induction fuel with
  | zero => intro offset rs _ _; rfl
  | succ f ih =>
    intro offset rs hno hcap
    by_cases h1 : offset + 4 ≤ content.length
    · have hhd : occB content JPG_HEADER offset = false := hno offset (Nat.le_refl _)
      simp only [carveJpgAux, h1, if_true]
      rw [if_neg (by rw [hhd]; exact Bool.false_ne_true), if_neg (by omega)]
      exact ih (offset + 1) rs (fun i hi => hno i (by omega)) hcap
    · simp only [carveJpgAux, h1, if_false]

/-- If no PNG header occurs anywhere, the PNG pass is the identity. -/
theorem carvePngAux_no_header (content : List Nat)
    (hpng : ∀ i, occB content PNG_HEADER i = false) :
    ∀ (fuel offset : Nat) (rs : List CarveRec), carvePngAux content fuel offset rs = rs := by
  intro fuel
  cases fuel with
  | zero => intro offset rs; rfl
  | succ f =>
    intro offset rs
    have hm : idxOfFrom content PNG_HEADER offset = none := by
      cases hcase : idxOfFrom content PNG_HEADER offset with
      | none => rfl
      | some m =>
        have := (idxOfFrom_some hcase).2.1
        rw [hpng m] at this
        exact absurd this (by simp)
    by_cases h1 : offset + 9 ≤ content.length
    · simp only [carvePngAux, h1, hm, if_true]
    · simp only [carvePngAux, h1, if_false]

/-- With exactly one JPG header (at `h`) and one footer (at `e`, after the
header, size in bounds), the JPG pass started anywhere at or before `h`
emits exactly that one artifact. -/
theorem carveJpgAux_unique (content : List Nat) (h e : Nat)
    (hh : occB content JPG_HEADER h = true)
    (hhu : ∀ i, occB content JPG_HEADER i = true → i = h)
    (hf : occB content JPG_FOOTER e = true)
    (hfu : ∀ i, occB content JPG_FOOTER i = true → i = e)
    (hhe : h + 3 ≤ e)
    (hsz1 : 100 < e + 2 - h) (hsz2 : e + 2 - h < 50 * 1024 * 1024) :
    ∀ (fuel offset : Nat) (rs : List CarveRec),
      offset ≤ h → content.length + 1 ≤ fuel + offset → rs.length < 500 →
      carveJpgAux content fuel offset rs
        = rs ++ [⟨CarveType.jpg, h, e + 2 - h⟩] := by
  have heL : e + 2 ≤ content.length := by
    have := occB_le (by decide : JPG_FOOTER ≠ []) hf
    simpa [JPG_FOOTER] using this
  intro fuel
  induction fuel with
  | zero =>
    intro offset rs hoh hfl hcap
    omega
  | succ f ih =>
    intro offset rs hoh hfl hcap
    have hguard : offset + 4 ≤ content.length := by omega
    rcases Nat.eq_or_lt_of_le hoh with heq | hlt
    · -- the loop has reached the unique header
      subst heq
      have hidx : idxOfFrom content JPG_FOOTER (offset + 3) = some e := by
        apply idxOfFrom_some_of (by decide : JPG_FOOTER ≠ []) (by omega) hf
        intro k hk1 hk2
        cases hocc : occB content JPG_FOOTER k with
        | false => rfl
        | true =>
          have := hfu k hocc
          omega
      simp only [carveJpgAux, hguard, hh, hidx, if_true]
      have hP : 100 < e + 2 - offset ∧ e + 2 - offset < 50 * 1024 * 1024 :=
        ⟨hsz1, hsz2⟩
      rw [if_pos hP]
      rw [if_neg (by
        simp only [List.length_append, List.length_cons, List.length_nil]
        omega)]
      apply carveJpgAux_no_header
      · intro i hi
        cases hocc : occB content JPG_HEADER i with
        | false => rfl
        | true =>
          have := hhu i hocc
          omega
      · simp only [List.length_append, List.length_cons, List.length_nil]
        omega
    · -- not at the header yet: no match here, step forward
      have hhd : occB content JPG_HEADER offset = false := by
        cases hocc : occB content JPG_HEADER offset with
        | false => rfl
        | true =>
          have := hhu offset hocc
          omega
      simp only [carveJpgAux, hguard, if_true]
      rw [if_neg (by rw [hhd]; exact Bool.false_ne_true), if_neg (by omega)]
      exact ih (offset + 1) rs (by omega) (by omega) hcap

/--
C8: for every buffer holding exactly one JPG header (`FF D8 FF`, at `h`)
later followed by exactly one footer (`FF D9`, at `e ≥ h + 3`), with no
other header or footer occurrence and no PNG header anywhere, and with
header-to-footer-inclusive size `e + 2 - h` strictly between 100 bytes and
50 MB, the whole-file carve emits exactly one artifact, at offset `h` with
that size; and on every input, every emitted artifact is larger than 100
bytes (candidates at or below 100 bytes are discarded).
-/
theorem C8_whole_file_jpeg_carve (content : List Nat) (h e : Nat)
    (hh : occB content JPG_HEADER h = true)
    (hhu : ∀ i, i < content.length → occB content JPG_HEADER i = true → i = h)
    (hf : occB content JPG_FOOTER e = true)
    (hfu : ∀ i, i < content.length → occB content JPG_FOOTER i = true → i = e)
    (hhe : h + 3 ≤ e)
    (hsz1 : 100 < e + 2 - h) (hsz2 : e + 2 - h < 50 * 1024 * 1024)
    (hpng : ∀ i, i < content.length → occB content PNG_HEADER i = false) :
    carveMedia content = [⟨CarveType.jpg, h, e + 2 - h⟩] ∧
      ∀ (c : List Nat) (a : CarveRec), a ∈ carveMedia c → 100 < a.size := by
  have hhu' : ∀ i, occB content JPG_HEADER i = true → i = h := by
    intro i hocc
    have := occB_le (by decide : JPG_HEADER ≠ []) hocc
    exact hhu i (by simp [JPG_HEADER] at this; omega) hocc
  have hfu' : ∀ i, occB content JPG_FOOTER i = true → i = e := by
    intro i hocc
    have := occB_le (by decide : JPG_FOOTER ≠ []) hocc
    exact hfu i (by simp [JPG_FOOTER] at this; omega) hocc
  have hpng' : ∀ i, occB content PNG_HEADER i = false := by
    intro i
    cases hocc : occB content PNG_HEADER i with
    | false => rfl
    | true =>
      have := occB_le (by decide : PNG_HEADER ≠ []) hocc
      have hlt : i < content.length := by simp [PNG_HEADER] at this; omega
      rw [hpng i hlt] at hocc
      exact absurd hocc (by simp)
  constructor
  · rw [carveMedia, carvePngAux_no_header content hpng',
      carveJpgAux_unique content h e hh hhu' hf hfu' hhe hsz1 hsz2
        (content.length + 1) 0 [] (by omega) (by omega) (by simp)]
    simp
  · intro c a ha
    rw [carveMedia] at ha
    exact carvePngAux_size c _ _ _
      (carveJpgAux_size c _ _ _ (by simp)) a ha

/-- A 110-byte buffer with one JPEG (header at 2, footer at 105, size 105)
between padding bytes. -/
def c8File : List Nat :=
  [0, 0] ++ [255, 216, 255] ++ List.replicate 100 0 ++ [255, 217] ++ [0, 0, 0]

theorem C8_witness :
    carveMedia c8File = [⟨CarveType.jpg, 2, 105⟩] :=
  (C8_whole_file_jpeg_carve c8File 2 105 (by decide) (by decide) (by decide)
    (by decide) (by decide) (by decide) (by decide) (by decide)).1

/-
### `keywordSearch` across a file list (hex mode)

    for (let i = 0; i < files.length; i++) {
      const { ok, size } = checkFileSize(f);          // ok ⟺ size ≤ 512 MB
      if (!ok) {
        const chunkHits = await searchFileStreamingHex(f, searchBuf, ...);
        hits.push(...chunkHits.map(...));
        if (hits.length > 500) break;
        ...
        continue;
      }
      const content = fs.readFileSync(f);
      ...whole-buffer loop pushing into hits, breaking once hits.length > 500...
      if (hits.length > 500) break;
    }

A hit is recorded here by its matched offset; context rendering and file
attribution do not affect how many hits accumulate.
-/

def MAX_FILE_SIZE_SYNC : Nat := 512 * 1024 * 1024

def keywordSearchHexAux (needle : List Nat) : List (List Nat) → List Nat → List Nat
  | [], hits => hits
  | f :: rest, hits =>
    let hits' :=
      if f.length ≤ MAX_FILE_SIZE_SYNC then
        wholeHexScanAux f needle (f.length + 1) 0 hits
      else
        hits ++ (searchFileStreamingHex HEX_CHUNK f needle (f.length + 2)).hits
    if 500 < hits'.length then hits'
    else keywordSearchHexAux needle rest hits'

/-- One `keywordSearch` run in hex mode over the scanned file list. -/
def keywordSearchHex (files : List (List Nat)) (needle : List Nat) : List Nat :=
  keywordSearchHexAux needle files []

theorem hexInner_length_le (needle window : List Nat) (readStart : Nat) :
    ∀ (fuel pos : Nat) (hits : List Nat),
      (hexInner needle window readStart fuel pos hits).length ≤ max hits.length 50 := by
  intro fuel
  induction fuel with
  | zero => intro pos hits; simp [hexInner]
  | succ f ih =>
    intro pos hits
    simp only [hexInner]
    by_cases hguard : pos + needle.length ≤ window.length ∧ hits.length < 50
    · rw [if_pos hguard]
      cases hidx : idxOfFrom window needle pos with
      | none => simp
      | some idx =>
        calc (hexInner needle window readStart f (idx + 1) (hits ++ [readStart + idx])).length
            ≤ max (hits ++ [readStart + idx]).length 50 := ih _ _
          _ ≤ max hits.length 50 := by
              simp only [List.length_append, List.length_cons, List.length_nil]
              omega
    · rw [if_neg hguard]
      simp

theorem hexStep_hits_le {Cs : Nat} {file needle : List Nat} (s : HexStream)
    (h : s.hits.length ≤ 50) : (hexStep Cs file needle s).hits.length ≤ 50 := by
  rw [hexStep]
  by_cases hfin : s.fin = true
  · rw [if_pos hfin]; exact h
  · rw [if_neg hfin]
    by_cases hguard : s.go < file.length ∧ s.hits.length < 50
    · rw [if_pos hguard]
      by_cases hw : ((file.drop (s.go - s.carry)).take (Cs + (needle.length - 1))).length = 0
      · rw [if_pos hw]; exact h
      · rw [if_neg hw]
        simp only
        calc (hexInner needle _ _ _ s.carry s.hits).length
            ≤ max s.hits.length 50 := hexInner_length_le _ _ _ _ _ _
          _ ≤ 50 := by omega
    · rw [if_neg hguard]; exact h

theorem searchFileStreamingHex_hits_le (Cs : Nat) (file needle : List Nat) :
    ∀ n, (searchFileStreamingHex Cs file needle n).hits.length ≤ 50 := by
  intro n
  induction n with
  | zero => simp [searchFileStreamingHex, hexStreamInit]
  | succ m ih => exact hexStep_hits_le _ ih

theorem wholeHexScanAux_length_le (content needle : List Nat) :
    ∀ (fuel pos : Nat) (hits : List Nat), hits.length ≤ 500 →
      (wholeHexScanAux content needle fuel pos hits).length ≤ 501 := by
  intro fuel
  induction fuel with
  | zero => intro pos hits h; simpa [wholeHexScanAux] using (by omega : hits.length ≤ 501)
  | succ f ih =>
    intro pos hits h
    simp only [wholeHexScanAux]
    cases hidx : idxOfFrom content needle pos with
    | none =>
      show hits.length ≤ 501
      omega
    | some idx =>
      show (if 500 < (hits ++ [idx]).length then hits ++ [idx]
        else wholeHexScanAux content needle f (idx + 1) (hits ++ [idx])).length ≤ 501
      by_cases hcap : 500 < (hits ++ [idx]).length
      · rw [if_pos hcap]
        simp only [List.length_append, List.length_cons, List.length_nil]
        omega
      · rw [if_neg hcap]
        apply ih
        simp only [List.length_append, List.length_cons, List.length_nil] at hcap ⊢
        omega

theorem keywordSearchHexAux_le (needle : List Nat) :
    ∀ (files : List (List Nat)) (hits : List Nat), hits.length ≤ 500 →
      (keywordSearchHexAux needle files hits).length ≤ 550 := by
  intro files
  induction files with
  | nil => intro hits h; simpa [keywordSearchHexAux] using (by omega : hits.length ≤ 550)
  | cons f rest ih =>
    intro hits h
    simp only [keywordSearchHexAux]
    by_cases hsync : f.length ≤ MAX_FILE_SIZE_SYNC
    · rw [if_pos hsync]
      have hw := wholeHexScanAux_length_le f needle (f.length + 1) 0 hits h
      by_cases hcap : 500 < (wholeHexScanAux f needle (f.length + 1) 0 hits).length
      · rw [if_pos hcap]; omega
      · rw [if_neg hcap]
        exact ih _ (by omega)
    · rw [if_neg hsync]
      have hs := searchFileStreamingHex_hits_le HEX_CHUNK f needle (f.length + 2)
      by_cases hcap : 500 <
          (hits ++ (searchFileStreamingHex HEX_CHUNK f needle (f.length + 2)).hits).length
      · rw [if_pos hcap]
        simp only [List.length_append]
        omega
      · rw [if_neg hcap]
        apply ih
        simp only [List.length_append] at hcap ⊢
        omega

theorem keywordSearchHexAux_sync_le (needle : List Nat) :
    ∀ (files : List (List Nat)) (hits : List Nat),
      (∀ f ∈ files, f.length ≤ MAX_FILE_SIZE_SYNC) → hits.length ≤ 500 →
      (keywordSearchHexAux needle files hits).length ≤ 501 := by
  intro files
  induction files with
  | nil => intro hits _ h; simpa [keywordSearchHexAux] using (by omega : hits.length ≤ 501)
  | cons f rest ih =>
    intro hits hall h
    simp only [keywordSearchHexAux]
    have hsync : f.length ≤ MAX_FILE_SIZE_SYNC := hall f (by simp)
    rw [if_pos hsync]
    have hw := wholeHexScanAux_length_le f needle (f.length + 1) 0 hits h
    by_cases hcap : 500 < (wholeHexScanAux f needle (f.length + 1) 0 hits).length
    · rw [if_pos hcap]; omega
    · rw [if_neg hcap]
      exact ih _ (fun g hg => hall g (by simp [hg])) (by omega)

/--
C9 (amended): the accumulated hit list of a keyword/hex search run is *not*
bounded by 500 — the caps are checked only after pushing (`> 500`), so the
whole-buffer path can reach 501 hits, and the streaming path appends its
per-file batch (up to 50 hits) after a `≤ 500` check, for a bound of 550.
The run stops accumulating once the count exceeds 500.
-/
theorem C9_hit_cap_amended (files : List (List Nat)) (needle : List Nat) :
    (keywordSearchHex files needle).length ≤ 550 ∧
      ((∀ f ∈ files, f.length ≤ MAX_FILE_SIZE_SYNC) →
        (keywordSearchHex files needle).length ≤ 501) := by
  constructor
  · exact keywordSearchHexAux_le needle files [] (by simp)
  · intro hall
    exact keywordSearchHexAux_sync_le needle files [] hall (by simp)

theorem c9_idx (k : Nat) (hk : k ≤ 501) :
    idxOfFrom (List.replicate 502 170) [170] k = some k := by
  refine idxOfFrom_some_of (by simp) (Nat.le_refl k) ?_ ?_
  · rw [occB, List.drop_replicate]
    have h : 502 - k = (501 - k) + 1 := by omega
    rw [h, List.replicate_succ]
    simp [startsWithB]
  · intro k' h1 h2
    omega

theorem wholeHexScanAux_succ_some {content needle : List Nat} {offset idx : Nat}
    (h : idxOfFrom content needle offset = some idx) (fuel : Nat) (hits : List Nat) :
    wholeHexScanAux content needle (fuel + 1) offset hits =
      if 500 < (hits ++ [idx]).length then hits ++ [idx]
      else wholeHexScanAux content needle fuel (idx + 1) (hits ++ [idx]) := by
  simp only [wholeHexScanAux, h]

theorem c9_scan : ∀ (fuel k : Nat) (hits : List Nat), hits.length = k → k ≤ 500 →
    501 - k < fuel →
    (wholeHexScanAux (List.replicate 502 170) [170] fuel k hits).length = 501 := by
  intro fuel
  induction fuel with
  | zero => intro k hits _ _ hf; omega
  | succ f ih =>
    intro k hits hl hk hf
    rw [wholeHexScanAux_succ_some (c9_idx k (by omega))]
    by_cases hc : 500 < (hits ++ [k]).length
    · rw [if_pos hc]
      simp only [List.length_append, List.length_cons, List.length_nil] at hc ⊢
      omega
    · rw [if_neg hc]
      simp only [List.length_append, List.length_cons, List.length_nil] at hc
      exact ih (k + 1) (hits ++ [k]) (by simp [hl]) (by omega) (by omega)

/--
C9 (counterexample): a single 502-byte in-memory file whose every byte
matches the 1-byte hex needle yields 501 accumulated hits — the run's hit
list exceeds the claimed cap of 500.
-/
theorem C9_counterexample :
    (keywordSearchHex [List.replicate 502 170] [170]).length = 501 := by
  have hsync : 502 ≤ MAX_FILE_SIZE_SYNC := by
    rw [MAX_FILE_SIZE_SYNC]
    omega
  have hstep : keywordSearchHex [List.replicate 502 170] [170]
      = wholeHexScanAux (List.replicate 502 170) [170] (502 + 1) 0 [] := by
    rw [keywordSearchHex]
    simp only [keywordSearchHexAux, List.length_replicate, hsync, if_true, ite_self,
      ite_true]
  rw [hstep]
  exact c9_scan (502 + 1) 0 [] rfl (by omega) (by omega)

/-
### bbAnalyzer: string counting, media signatures, REMF header, encryption flag
-/

def REMF_MAGIC : List Nat := [82, 69, 77, 70]

/-- `hasRemfHeader`: the first four bytes are `52 45 4D 46` (a buffer shorter
than 4 bytes yields a shorter `take`, which never equals the magic — the
source returns `false` for `length < 4` explicitly). -/
def hasRemfHeader (content : List Nat) : Bool :=
  content.take 4 == REMF_MAGIC

/-- `countStringsInBuffer`'s run loop: `cur` is the current printable-run
length, `count` the number of completed runs of length ≥ `minLen`. -/
def countStringsAux (minLen : Nat) : List Nat → Nat → Nat → Nat
  | [], cur, count => if minLen ≤ cur then count + 1 else count
  | b :: rest, cur, count =>
    if 32 ≤ b ∧ b < 127 then countStringsAux minLen rest (cur + 1) count
    else countStringsAux minLen rest 0 (if minLen ≤ cur then count + 1 else count)

def countStringsInBuffer (buffer : List Nat) : Nat :=
  countStringsAux 4 buffer 0 0

/-- One of `countMediaSignatures`' two scan loops:

    while (offset < buffer.length - margin) {
      const idx = buffer.indexOf(sig, offset);
      if (idx !== -1 && idx < buffer.length - margin) { count++; offset = idx + adv; }
      else break;
    }
-/
def countSigAux (sig : List Nat) (adv margin : Nat) (buffer : List Nat) :
    Nat → Nat → Nat → Nat
  | 0, _, count => count
  | fuel + 1, offset, count =>
    if offset + margin + 1 ≤ buffer.length then
      match idxOfFrom buffer sig offset with
      | some idx =>
        if idx + margin + 1 ≤ buffer.length then
          countSigAux sig adv margin buffer fuel (idx + adv) (count + 1)
        else count
      | none => count
    else count

/-- `countMediaSignatures`: JPG signatures (margin 4, advance 3) plus 4-byte
PNG signatures (margin 8, advance 4), one shared counter. -/
def countMediaSignatures (buffer : List Nat) : Nat :=
  countSigAux [137, 80, 78, 71] 4 8 buffer (buffer.length + 1) 0
    (countSigAux JPG_HEADER 3 4 buffer (buffer.length + 1) 0 0)

/-- `detectEncryption`: buffers under 16 bytes are never flagged; otherwise
the source computes the Shannon entropy of a 256-bin histogram over the
first `min(length, 4096)` bytes with floating-point `Math.log2` and flags
`entropy > 7.0`.  That floating-point test is kept abstract as the
`entropyHigh` parameter applied to the sampled prefix. -/
def detectEncryption (entropyHigh : List Nat → Bool) (content : List Nat) : Bool :=
  if content.length < 16 then false
  else entropyHigh (content.take 4096)

/-- `analyzeBBBackup`'s decryptability rule for one `.rem` record: it starts
out `decryptable := false` and is set exactly when the file was flagged
encrypted and at least one key file exists. -/
def remDecryptable (entropyHigh : List Nat → Bool) (content : List Nat)
    (keyFileCount : Nat) : Bool :=
  detectEncryption entropyHigh content && decide (0 < keyFileCount)

/--
C10: `detectEncryption` returns `false` for every buffer shorter than 16
bytes regardless of content — for every entropy test, including one that
would flag the sample (entropy above 7.0 bits/byte) — so such a `.rem`
file is never marked encrypted, and hence never marked decryptable however
many key files are present.
-/
theorem C10_short_buffer_never_encrypted (entropyHigh : List Nat → Bool)
    (content : List Nat) (keyFileCount : Nat) (h : content.length < 16) :
    detectEncryption entropyHigh content = false ∧
      remDecryptable entropyHigh content keyFileCount = false := by
  have h1 : detectEncryption entropyHigh content = false := by
    rw [detectEncryption, if_pos h]
  refine ⟨h1, ?_⟩
  rw [remDecryptable, h1, Bool.false_and]

theorem C10_witness :
    detectEncryption (fun _ => true) (List.replicate 15 255) = false ∧
      remDecryptable (fun _ => true) (List.replicate 15 255) 3 = false :=
  C10_short_buffer_never_encrypted (fun _ => true) (List.replicate 15 255) 3 (by decide)

/-
### `decryptRemFile`

    const hasRemf = hasRemfHeader(remContent);
    const workingContent = remContent.slice(hasRemf ? 4 : 0);
    for (const kf of keyFiles) {
      ...XOR attempt (always)...
      try { ...AES-128-CBC attempt, only if the first 16 key bytes exist and
            the 16-truncated 1 MiB window is non-empty... } catch {}
      try { ...3DES-CBC attempt, only if the first 24 key bytes exist and
            the 8-truncated window is non-empty... } catch {}
    }

Each attempt replaces the running best exactly when its
extracted-printable-string count strictly exceeds the best's.  The two
cipher primitives (`crypto.createDecipheriv` + update/final) are external
library calls, kept abstract as `aesDec`/`desDec`; a throwing decipher is
the instance whose output contains no printable run, so the universally
quantified results cover it.  `searchForMessages`/`searchForContacts`
decode the buffer as UTF-8 and run regexes over it; they are kept abstract
as `msgCount`/`contactCount` (they never influence which attempt wins).
-/

structure BBKeyFile where
  filename : String
  bytes : List Nat
deriving Repr

structure DecrResult where
  success : Bool
  method : String
  extractedStrings : Nat
  messages : Nat
  contacts : Nat
  media : Nat
deriving Repr, DecidableEq

/-- The external collaborators of `decryptRemFile`. -/
structure DecCtx where
  aesDec : List Nat → List Nat → List Nat
  desDec : List Nat → List Nat → List Nat
  msgCount : List Nat → Nat
  contactCount : List Nat → Nat

/-- `output[i] = input[i] XOR key[i % keyLength]` over the first 1 MiB.  An
empty key file gives `i % 0` (NaN in JS, so `key[...]` is `undefined` and
`x ^ undefined = x`); here `i % 0 = i` is out of range, `getD` yields 0 and
`x ^^^ 0 = x` — the same identity transform. -/
def xorTransform (work key : List Nat) : List Nat :=
  (List.range (min work.length (1024 * 1024))).map
    (fun i => Nat.xor (work.getD i 0) (key.getD (i % key.length) 0))

def initBest : DecrResult :=
  { success := false, method := "none", extractedStrings := 0,
    messages := 0, contacts := 0, media := 0 }

def workingContent (rem : List Nat) : List Nat :=
  if hasRemfHeader rem then rem.drop 4 else rem

def xorStep (ctx : DecCtx) (work : List Nat) (hasRemf : Bool)
    (best : DecrResult) (kf : BBKeyFile) : DecrResult :=
  let out := xorTransform work kf.bytes
  if best.extractedStrings < countStringsInBuffer out then
    { success := true,
      method := "XOR with " ++ kf.filename ++
        (if hasRemf then " (REMF header stripped)" else ""),
      extractedStrings := countStringsInBuffer out,
      messages := ctx.msgCount out, contacts := ctx.contactCount out,
      media := countMediaSignatures out }
  else best

def aesStep (ctx : DecCtx) (work : List Nat) (hasRemf : Bool)
    (best : DecrResult) (kf : BBKeyFile) : DecrResult :=
  if (kf.bytes.take 16).length = 16 then
    if 0 < min work.length (1024 * 1024) / 16 * 16 then
      let out := ctx.aesDec (kf.bytes.take 16)
        (work.take (min work.length (1024 * 1024) / 16 * 16))
      if best.extractedStrings < countStringsInBuffer out then
        { success := true,
          method := "AES-128-CBC with " ++ kf.filename ++
            (if hasRemf then " (REMF)" else ""),
          extractedStrings := countStringsInBuffer out,
          messages := ctx.msgCount out, contacts := ctx.contactCount out,
          media := countMediaSignatures out }
      else best
    else best
  else best

def desStep (ctx : DecCtx) (work : List Nat) (hasRemf : Bool)
    (best : DecrResult) (kf : BBKeyFile) : DecrResult :=
  if (kf.bytes.take 24).length = 24 then
    if 0 < min work.length (1024 * 1024) / 8 * 8 then
      let out := ctx.desDec (kf.bytes.take 24)
        (work.take (min work.length (1024 * 1024) / 8 * 8))
      if best.extractedStrings < countStringsInBuffer out then
        { success := true,
          method := "3DES-CBC with " ++ kf.filename ++
            (if hasRemf then " (REMF)" else ""),
          extractedStrings := countStringsInBuffer out,
          messages := ctx.msgCount out, contacts := ctx.contactCount out,
          media := countMediaSignatures out }
      else best
    else best
  else best

/-- One key file's three sequential attempts. -/
def stepKey (ctx : DecCtx) (work : List Nat) (hasRemf : Bool)
    (best : DecrResult) (kf : BBKeyFile) : DecrResult :=
  desStep ctx work hasRemf (aesStep ctx work hasRemf
    (xorStep ctx work hasRemf best kf) kf) kf

def decryptRemFile (ctx : DecCtx) (rem : List Nat) (keyFiles : List BBKeyFile) : DecrResult :=
  keyFiles.foldl (stepKey ctx (workingContent rem) (hasRemfHeader rem)) initBest

/-- The extracted-string counts of the attempts actually performed for one
key file (XOR always; AES only with ≥ 16 key bytes and a non-empty
16-truncated window; 3DES only with ≥ 24 key bytes and a non-empty
8-truncated window). -/
def attemptCounts (ctx : DecCtx) (work : List Nat) (kf : BBKeyFile) : List Nat :=
  [countStringsInBuffer (xorTransform work kf.bytes)] ++
  (if (kf.bytes.take 16).length = 16 then
    if 0 < min work.length (1024 * 1024) / 16 * 16 then
      [countStringsInBuffer (ctx.aesDec (kf.bytes.take 16)
        (work.take (min work.length (1024 * 1024) / 16 * 16)))]
    else []
  else []) ++
  (if (kf.bytes.take 24).length = 24 then
    if 0 < min work.length (1024 * 1024) / 8 * 8 then
      [countStringsInBuffer (ctx.desDec (kf.bytes.take 24)
        (work.take (min work.length (1024 * 1024) / 8 * 8)))]
    else []
  else [])

theorem xorStep_mono (ctx : DecCtx) (work : List Nat) (hR : Bool)
    (best : DecrResult) (kf : BBKeyFile) :
    best.extractedStrings ≤ (xorStep ctx work hR best kf).extractedStrings := by
  simp only [xorStep]
  by_cases h : best.extractedStrings < countStringsInBuffer (xorTransform work kf.bytes)
  · rw [if_pos h]
    exact Nat.le_of_lt h
  · rw [if_neg h]

theorem aesStep_mono (ctx : DecCtx) (work : List Nat) (hR : Bool)
    (best : DecrResult) (kf : BBKeyFile) :
    best.extractedStrings ≤ (aesStep ctx work hR best kf).extractedStrings := by
  simp only [aesStep]
  by_cases h16 : (kf.bytes.take 16).length = 16
  · rw [if_pos h16]
    by_cases hlen : 0 < min work.length (1024 * 1024) / 16 * 16
    · rw [if_pos hlen]
      by_cases h : best.extractedStrings < countStringsInBuffer (ctx.aesDec (kf.bytes.take 16)
          (work.take (min work.length (1024 * 1024) / 16 * 16)))
      · rw [if_pos h]
        exact Nat.le_of_lt h
      · rw [if_neg h]
    · rw [if_neg hlen]
  · rw [if_neg h16]

theorem desStep_mono (ctx : DecCtx) (work : List Nat) (hR : Bool)
    (best : DecrResult) (kf : BBKeyFile) :
    best.extractedStrings ≤ (desStep ctx work hR best kf).extractedStrings := by
  simp only [desStep]
  by_cases h24 : (kf.bytes.take 24).length = 24
  · rw [if_pos h24]
    by_cases hlen : 0 < min work.length (1024 * 1024) / 8 * 8
    · rw [if_pos hlen]
      by_cases h : best.extractedStrings < countStringsInBuffer (ctx.desDec (kf.bytes.take 24)
          (work.take (min work.length (1024 * 1024) / 8 * 8)))
      · rw [if_pos h]
        exact Nat.le_of_lt h
      · rw [if_neg h]
    · rw [if_neg hlen]
  · rw [if_neg h24]

theorem stepKey_mono (ctx : DecCtx) (work : List Nat) (hR : Bool)
    (best : DecrResult) (kf : BBKeyFile) :
    best.extractedStrings ≤ (stepKey ctx work hR best kf).extractedStrings := by
  calc best.extractedStrings
      ≤ (xorStep ctx work hR best kf).extractedStrings := xorStep_mono ..
    _ ≤ (aesStep ctx work hR (xorStep ctx work hR best kf) kf).extractedStrings :=
        aesStep_mono ..
    _ ≤ _ := desStep_mono ..

theorem xorStep_K (ctx : DecCtx) (work : List Nat) (hR : Bool)
    (best : DecrResult) (kf : BBKeyFile)
    (hK : 0 < best.extractedStrings → best.success = true) :
    0 < (xorStep ctx work hR best kf).extractedStrings →
      (xorStep ctx work hR best kf).success = true := by
  simp only [xorStep]
  by_cases h : best.extractedStrings < countStringsInBuffer (xorTransform work kf.bytes)
  · rw [if_pos h]; intro; rfl
  · rw [if_neg h]; exact hK

theorem aesStep_K (ctx : DecCtx) (work : List Nat) (hR : Bool)
    (best : DecrResult) (kf : BBKeyFile)
    (hK : 0 < best.extractedStrings → best.success = true) :
    0 < (aesStep ctx work hR best kf).extractedStrings →
      (aesStep ctx work hR best kf).success = true := by
  simp only [aesStep]
  by_cases h16 : (kf.bytes.take 16).length = 16
  · rw [if_pos h16]
    by_cases hlen : 0 < min work.length (1024 * 1024) / 16 * 16
    · rw [if_pos hlen]
      by_cases h : best.extractedStrings < countStringsInBuffer (ctx.aesDec (kf.bytes.take 16)
          (work.take (min work.length (1024 * 1024) / 16 * 16)))
      · rw [if_pos h]; intro; rfl
      · rw [if_neg h]; exact hK
    · rw [if_neg hlen]; exact hK
  · rw [if_neg h16]; exact hK

theorem desStep_K (ctx : DecCtx) (work : List Nat) (hR : Bool)
    (best : DecrResult) (kf : BBKeyFile)
    (hK : 0 < best.extractedStrings → best.success = true) :
    0 < (desStep ctx work hR best kf).extractedStrings →
      (desStep ctx work hR best kf).success = true := by
  simp only [desStep]
  by_cases h24 : (kf.bytes.take 24).length = 24
  · rw [if_pos h24]
    by_cases hlen : 0 < min work.length (1024 * 1024) / 8 * 8
    · rw [if_pos hlen]
      by_cases h : best.extractedStrings < countStringsInBuffer (ctx.desDec (kf.bytes.take 24)
          (work.take (min work.length (1024 * 1024) / 8 * 8)))
      · rw [if_pos h]; intro; rfl
      · rw [if_neg h]; exact hK
    · rw [if_neg hlen]; exact hK
  · rw [if_neg h24]; exact hK

theorem stepKey_K (ctx : DecCtx) (work : List Nat) (hR : Bool)
    (best : DecrResult) (kf : BBKeyFile)
    (hK : 0 < best.extractedStrings → best.success = true) :
    0 < (stepKey ctx work hR best kf).extractedStrings →
      (stepKey ctx work hR best kf).success = true :=
  desStep_K ctx work hR _ kf (aesStep_K ctx work hR _ kf (xorStep_K ctx work hR best kf hK))

theorem xorStep_noupdate (ctx : DecCtx) (work : List Nat) (hR : Bool)
    (best : DecrResult) (kf : BBKeyFile)
    (h : (xorStep ctx work hR best kf).success = false) :
    xorStep ctx work hR best kf = best := by
  revert h
  simp only [xorStep]
  by_cases h : best.extractedStrings < countStringsInBuffer (xorTransform work kf.bytes)
  · rw [if_pos h]; intro hfalse; exact absurd hfalse (by simp)
  · rw [if_neg h]; intro; rfl

theorem aesStep_noupdate (ctx : DecCtx) (work : List Nat) (hR : Bool)
    (best : DecrResult) (kf : BBKeyFile)
    (h : (aesStep ctx work hR best kf).success = false) :
    aesStep ctx work hR best kf = best := by
  revert h
  simp only [aesStep]
  by_cases h16 : (kf.bytes.take 16).length = 16
  · rw [if_pos h16]
    by_cases hlen : 0 < min work.length (1024 * 1024) / 16 * 16
    · rw [if_pos hlen]
      by_cases h : best.extractedStrings < countStringsInBuffer (ctx.aesDec (kf.bytes.take 16)
          (work.take (min work.length (1024 * 1024) / 16 * 16)))
      · rw [if_pos h]; intro hfalse; exact absurd hfalse (by simp)
      · rw [if_neg h]; intro; rfl
    · rw [if_neg hlen]; intro; rfl
  · rw [if_neg h16]; intro; rfl

theorem desStep_noupdate (ctx : DecCtx) (work : List Nat) (hR : Bool)
    (best : DecrResult) (kf : BBKeyFile)
    (h : (desStep ctx work hR best kf).success = false) :
    desStep ctx work hR best kf = best := by
  revert h
  simp only [desStep]
  by_cases h24 : (kf.bytes.take 24).length = 24
  · rw [if_pos h24]
    by_cases hlen : 0 < min work.length (1024 * 1024) / 8 * 8
    · rw [if_pos hlen]
      by_cases h : best.extractedStrings < countStringsInBuffer (ctx.desDec (kf.bytes.take 24)
          (work.take (min work.length (1024 * 1024) / 8 * 8)))
      · rw [if_pos h]; intro hfalse; exact absurd hfalse (by simp)
      · rw [if_neg h]; intro; rfl
    · rw [if_neg hlen]; intro; rfl
  · rw [if_neg h24]; intro; rfl

theorem stepKey_noupdate (ctx : DecCtx) (work : List Nat) (hR : Bool)
    (best : DecrResult) (kf : BBKeyFile)
    (h : (stepKey ctx work hR best kf).success = false) :
    stepKey ctx work hR best kf = best := by
  have hdes := desStep_noupdate ctx work hR _ kf h
  rw [stepKey] at h ⊢
  rw [hdes] at h ⊢
  have haes := aesStep_noupdate ctx work hR _ kf h
  rw [haes] at h ⊢
  exact xorStep_noupdate ctx work hR best kf h

theorem xorStep_count_le (ctx : DecCtx) (work : List Nat) (hR : Bool)
    (best : DecrResult) (kf : BBKeyFile) :
    countStringsInBuffer (xorTransform work kf.bytes)
      ≤ (xorStep ctx work hR best kf).extractedStrings := by
  simp only [xorStep]
  by_cases h : best.extractedStrings < countStringsInBuffer (xorTransform work kf.bytes)
  · rw [if_pos h]
  · rw [if_neg h]; omega

theorem aesStep_count_le (ctx : DecCtx) (work : List Nat) (hR : Bool)
    (best : DecrResult) (kf : BBKeyFile)
    (h16 : (kf.bytes.take 16).length = 16)
    (hlen : 0 < min work.length (1024 * 1024) / 16 * 16) :
    countStringsInBuffer (ctx.aesDec (kf.bytes.take 16)
        (work.take (min work.length (1024 * 1024) / 16 * 16)))
      ≤ (aesStep ctx work hR best kf).extractedStrings := by
  simp only [aesStep]
  rw [if_pos h16, if_pos hlen]
  by_cases h : best.extractedStrings < countStringsInBuffer (ctx.aesDec (kf.bytes.take 16)
      (work.take (min work.length (1024 * 1024) / 16 * 16)))
  · rw [if_pos h]
  · rw [if_neg h]
    simp only [show (1024 * 1024 : Nat) = 1048576 from rfl] at h ⊢
    omega

theorem desStep_count_le (ctx : DecCtx) (work : List Nat) (hR : Bool)
    (best : DecrResult) (kf : BBKeyFile)
    (h24 : (kf.bytes.take 24).length = 24)
    (hlen : 0 < min work.length (1024 * 1024) / 8 * 8) :
    countStringsInBuffer (ctx.desDec (kf.bytes.take 24)
        (work.take (min work.length (1024 * 1024) / 8 * 8)))
      ≤ (desStep ctx work hR best kf).extractedStrings := by
  simp only [desStep]
  rw [if_pos h24, if_pos hlen]
  by_cases h : best.extractedStrings < countStringsInBuffer (ctx.desDec (kf.bytes.take 24)
      (work.take (min work.length (1024 * 1024) / 8 * 8)))
  · rw [if_pos h]
  · rw [if_neg h]
    simp only [show (1024 * 1024 : Nat) = 1048576 from rfl] at h ⊢
    omega

theorem stepKey_count_le (ctx : DecCtx) (work : List Nat) (hR : Bool)
    (best : DecrResult) (kf : BBKeyFile) {c : Nat}
    (hc : c ∈ attemptCounts ctx work kf) :
    c ≤ (stepKey ctx work hR best kf).extractedStrings := by
  rw [attemptCounts] at hc
  rcases List.mem_append.1 hc with hc | hc
  · rcases List.mem_append.1 hc with hc | hc
    · -- the XOR attempt
      simp only [List.mem_singleton] at hc
      subst hc
      calc countStringsInBuffer (xorTransform work kf.bytes)
          ≤ (xorStep ctx work hR best kf).extractedStrings := xorStep_count_le ..
        _ ≤ (aesStep ctx work hR (xorStep ctx work hR best kf) kf).extractedStrings :=
            aesStep_mono ..
        _ ≤ _ := desStep_mono ..
    · -- the AES attempt (present only under its guards)
      by_cases h16 : (kf.bytes.take 16).length = 16
      · rw [if_pos h16] at hc
        by_cases hlen : 0 < min work.length (1024 * 1024) / 16 * 16
        · rw [if_pos hlen] at hc
          simp only [List.mem_singleton] at hc
          subst hc
          calc countStringsInBuffer _
              ≤ (aesStep ctx work hR (xorStep ctx work hR best kf) kf).extractedStrings :=
                aesStep_count_le ctx work hR _ kf h16 hlen
            _ ≤ _ := desStep_mono ..
        · rw [if_neg hlen] at hc; simp at hc
      · rw [if_neg h16] at hc; simp at hc
  · -- the 3DES attempt (present only under its guards)
    by_cases h24 : (kf.bytes.take 24).length = 24
    · rw [if_pos h24] at hc
      by_cases hlen : 0 < min work.length (1024 * 1024) / 8 * 8
      · rw [if_pos hlen] at hc
        simp only [List.mem_singleton] at hc
        subst hc
        exact desStep_count_le ctx work hR _ kf h24 hlen
      · rw [if_neg hlen] at hc; simp at hc
    · rw [if_neg h24] at hc; simp at hc

theorem stepKey_zero (ctx : DecCtx) (work : List Nat) (hR : Bool)
    (best : DecrResult) (kf : BBKeyFile)
    (hz : ∀ c ∈ attemptCounts ctx work kf, c = 0) :
    stepKey ctx work hR best kf = best := by
  have hxor : countStringsInBuffer (xorTransform work kf.bytes) = 0 :=
    hz _ (by rw [attemptCounts]; simp)
  have hxs : xorStep ctx work hR best kf = best := by
    simp only [xorStep]
    rw [if_neg (by omega)]
  rw [stepKey, hxs]
  have has : aesStep ctx work hR best kf = best := by
    simp only [aesStep]
    by_cases h16 : (kf.bytes.take 16).length = 16
    · rw [if_pos h16]
      by_cases hlen : 0 < min work.length (1024 * 1024) / 16 * 16
      · rw [if_pos hlen]
        have haes : countStringsInBuffer (ctx.aesDec (kf.bytes.take 16)
            (work.take (min work.length (1024 * 1024) / 16 * 16))) = 0 := by
          apply hz
          rw [attemptCounts, if_pos h16, if_pos hlen]
          simp
        rw [if_neg (by omega)]
      · rw [if_neg hlen]
    · rw [if_neg h16]
  rw [has]
  simp only [desStep]
  by_cases h24 : (kf.bytes.take 24).length = 24
  · rw [if_pos h24]
    by_cases hlen : 0 < min work.length (1024 * 1024) / 8 * 8
    · rw [if_pos hlen]
      have hdes : countStringsInBuffer (ctx.desDec (kf.bytes.take 24)
          (work.take (min work.length (1024 * 1024) / 8 * 8))) = 0 := by
        apply hz
        rw [attemptCounts, if_pos h24, if_pos hlen]
        simp
      rw [if_neg (by omega)]
    · rw [if_neg hlen]
  · rw [if_neg h24]

theorem foldl_stepKey_mono (ctx : DecCtx) (work : List Nat) (hR : Bool) :
    ∀ (keys : List BBKeyFile) (best : DecrResult),
      best.extractedStrings
        ≤ (List.foldl (stepKey ctx work hR) best keys).extractedStrings := by
  intro keys
  induction keys with
  | nil => intro best; exact Nat.le_refl _
  | cons kf rest ih =>
    intro best
    calc best.extractedStrings
        ≤ (stepKey ctx work hR best kf).extractedStrings := stepKey_mono ..
      _ ≤ _ := ih _

theorem foldl_stepKey_K (ctx : DecCtx) (work : List Nat) (hR : Bool) :
    ∀ (keys : List BBKeyFile) (best : DecrResult),
      (0 < best.extractedStrings → best.success = true) →
      (0 < (List.foldl (stepKey ctx work hR) best keys).extractedStrings →
        (List.foldl (stepKey ctx work hR) best keys).success = true) := by
  intro keys
  induction keys with
  | nil => intro best hK; exact hK
  | cons kf rest ih =>
    intro best hK
    exact ih _ (stepKey_K ctx work hR best kf hK)

theorem foldl_stepKey_noupdate (ctx : DecCtx) (work : List Nat) (hR : Bool) :
    ∀ (keys : List BBKeyFile) (best : DecrResult),
      (List.foldl (stepKey ctx work hR) best keys).success = false →
      List.foldl (stepKey ctx work hR) best keys = best := by
  intro keys
  induction keys with
  | nil => intro best _; rfl
  | cons kf rest ih =>
    intro best h
    simp only [List.foldl_cons] at h ⊢
    have h1 := ih (stepKey ctx work hR best kf) h
    rw [h1] at h ⊢
    exact stepKey_noupdate ctx work hR best kf h

theorem foldl_stepKey_zero (ctx : DecCtx) (work : List Nat) (hR : Bool) :
    ∀ (keys : List BBKeyFile) (best : DecrResult),
      (∀ kf ∈ keys, ∀ c ∈ attemptCounts ctx work kf, c = 0) →
      List.foldl (stepKey ctx work hR) best keys = best := by
  intro keys
  induction keys with
  | nil => intro best _; rfl
  | cons kf rest ih =>
    intro best hz
    simp only [List.foldl_cons]
    rw [stepKey_zero ctx work hR best kf (hz kf (by simp))]
    exact ih best (fun g hg => hz g (by simp [hg]))

/--
C4: `decryptRemFile` reports failure (`success = false` and
`method = "none"`) exactly when none of the performed (key, cipher)
transforms over the (REMF-stripped) input yields a positive
extracted-printable-string count; and a key file shorter than 16 bytes
skips only the AES attempt (its XOR attempt still runs, as does every
other key's processing, since the fold over key files is unchanged), while
one of 16–23 bytes skips only the 3DES attempt.
-/
theorem C4_decrypt_none_iff_no_positive (ctx : DecCtx) (rem : List Nat)
    (keyFiles : List BBKeyFile) :
    (((decryptRemFile ctx rem keyFiles).success = false ∧
        (decryptRemFile ctx rem keyFiles).method = "none") ↔
      ∀ kf ∈ keyFiles, ∀ c ∈ attemptCounts ctx (workingContent rem) kf, c = 0) ∧
    (∀ (work : List Nat) (hR : Bool) (best : DecrResult) (kf : BBKeyFile),
      kf.bytes.length < 16 →
      stepKey ctx work hR best kf = xorStep ctx work hR best kf) ∧
    (∀ (work : List Nat) (hR : Bool) (best : DecrResult) (kf : BBKeyFile),
      16 ≤ kf.bytes.length → kf.bytes.length < 24 →
      stepKey ctx work hR best kf
        = aesStep ctx work hR (xorStep ctx work hR best kf) kf) := by
  refine ⟨⟨?_, ?_⟩, ?_, ?_⟩
  · -- failure implies every performed transform counted zero strings
    rintro ⟨hsucc, -⟩ kf hkf c hc
    by_contra hc0
    have hcpos : 0 < c := by omega
    obtain ⟨pre, post, heq⟩ := List.append_of_mem hkf
    rw [decryptRemFile, heq, List.foldl_append, List.foldl_cons] at hsucc
    have hge : c ≤ (stepKey ctx (workingContent rem) (hasRemfHeader rem)
        (List.foldl (stepKey ctx (workingContent rem) (hasRemfHeader rem)) initBest pre)
        kf).extractedStrings :=
      stepKey_count_le ctx (workingContent rem) (hasRemfHeader rem) _ kf hc
    have hpos : 0 < (List.foldl (stepKey ctx (workingContent rem) (hasRemfHeader rem))
        (stepKey ctx (workingContent rem) (hasRemfHeader rem)
          (List.foldl (stepKey ctx (workingContent rem) (hasRemfHeader rem)) initBest pre)
          kf) post).extractedStrings := by
      have := foldl_stepKey_mono ctx (workingContent rem) (hasRemfHeader rem) post
        (stepKey ctx (workingContent rem) (hasRemfHeader rem)
          (List.foldl (stepKey ctx (workingContent rem) (hasRemfHeader rem)) initBest pre)
          kf)
      omega
    have hKinit : 0 < initBest.extractedStrings → initBest.success = true := by
      intro h; exact absurd h (by simp [initBest])
    have hsucc' := foldl_stepKey_K ctx (workingContent rem) (hasRemfHeader rem) post _
      (stepKey_K ctx (workingContent rem) (hasRemfHeader rem) _ kf
        (foldl_stepKey_K ctx (workingContent rem) (hasRemfHeader rem) pre initBest hKinit))
      hpos
    rw [hsucc] at hsucc'
    exact absurd hsucc' (by simp)
  · -- every performed transform counted zero: the initial record survives
    intro hz
    rw [decryptRemFile,
      foldl_stepKey_zero ctx (workingContent rem) (hasRemfHeader rem) keyFiles initBest hz]
    exact ⟨rfl, rfl⟩
  · -- a key under 16 bytes: only the XOR attempt runs
    intro work hR best kf hlt
    have h16 : ¬ ((kf.bytes.take 16).length = 16) := by
      simp only [List.length_take]
      omega
    have h24 : ¬ ((kf.bytes.take 24).length = 24) := by
      simp only [List.length_take]
      omega
    have ha : aesStep ctx work hR (xorStep ctx work hR best kf) kf
        = xorStep ctx work hR best kf := by
      simp only [aesStep]
      rw [if_neg h16]
    have hd : desStep ctx work hR (xorStep ctx work hR best kf) kf
        = xorStep ctx work hR best kf := by
      simp only [desStep]
      rw [if_neg h24]
    rw [stepKey, ha, hd]
  · -- a key of 16–23 bytes: XOR and AES run, only 3DES is skipped
    intro work hR best kf h16 hlt
    have h24 : ¬ ((kf.bytes.take 24).length = 24) := by
      simp only [List.length_take]
      omega
    have hd : desStep ctx work hR (aesStep ctx work hR (xorStep ctx work hR best kf) kf) kf
        = aesStep ctx work hR (xorStep ctx work hR best kf) kf := by
      simp only [desStep]
      rw [if_neg h24]
    rw [stepKey, hd]

/-
### Backup format classifier (`detectBackupFormat`)

A scanned file is its root-relative path (`path.relative(dirPath, f)`), its
basename, and its content bytes.  The source reads each file's first 4
bytes into a zero-filled 4-byte buffer, so short files are zero-padded.
-/

structure BFile where
  rel : String
  base : String
  bytes : List Nat
deriving Repr, DecidableEq

def charsStartWith : List Char → List Char → Bool
  | _, [] => true
  | [], _ :: _ => false
  | a :: as, b :: bs => a == b && charsStartWith as bs

def charsContain : List Char → List Char → Bool
  | [], pat => pat.isEmpty
  | a :: tl, pat => charsStartWith (a :: tl) pat || charsContain tl pat

/-- `String.includes` of JavaScript: substring containment. -/
def strContains (s pat : String) : Bool :=
  charsContain s.toList pat.toList

/-- `toLowerCase()` (character-wise; kernel-reducible form of
`String.toLower`). -/
def strToLower (s : String) : String :=
  String.mk (s.data.map Char.toLower)

/-- `String.endsWith` of JavaScript (kernel-reducible form). -/
def strEndsWith (s pat : String) : Bool :=
  s.data.drop (s.data.length - pat.data.length) == pat.data

def QNX_TAR_MAGIC : List Nat := [81, 78, 88, 0]
def PER_TAR_MAGIC : List Nat := [80, 69, 82, 0]

/-- The first four bytes as read into `Buffer.alloc(4)` (zero-padded when
the file is shorter than 4 bytes). -/
def read4 (bytes : List Nat) : List Nat :=
  bytes.take 4 ++ List.replicate (4 - bytes.length) 0

inductive BFType where
  | IPD
  | BBBv1_Mac
  | BBBv2_Windows
  | BB10_BBB
  | BB10_TAR_QNX
  | BB10_TAR_PER
  | Unknown
deriving Repr, DecidableEq

structure BBBackupFormat where
  type : BFType
  confidence : Nat
  details : String
  manifestFound : Bool
  pkgInfoFound : Bool
  archiveFiles : List String
deriving Repr, DecidableEq

def basenamesLower (files : List BFile) : List String :=
  files.map (fun f => strToLower f.base)

def hasManifest (files : List BFile) : Bool :=
  (basenamesLower files).any (fun b => b == "manifest.xml")

def hasPkgInfo (files : List BFile) : Bool :=
  (basenamesLower files).any (fun b => b == "pkginfo")

def hasArchiveDir (files : List BFile) : Bool :=
  files.any (fun f => strContains (strToLower f.rel) "archive/" ||
    strContains (strToLower f.rel) "archive\\")

def tarCount (files : List BFile) : Nat :=
  ((basenamesLower files).filter (fun b => strEndsWith b ".tar")).length

def datCount (files : List BFile) : Nat :=
  ((basenamesLower files).filter (fun b => strEndsWith b ".dat")).length

def remCount (files : List BFile) : Nat :=
  ((basenamesLower files).filter (fun b => strEndsWith b ".rem")).length

def hasIpd (files : List BFile) : Bool :=
  (basenamesLower files).any (fun b => strEndsWith b ".ipd")

/-- The `.tar` members reported in a result (filtered over relative paths,
case-sensitively, exactly as the source does). -/
def tarMembers (files : List BFile) : List String :=
  (files.map (fun f => f.rel)).filter (fun r => strEndsWith r ".tar")

/-- The per-file magic scan: for each file in list order, first the QNX
magic is tested, then the PER magic; the first file bearing either magic
decides (`some true` = QNX, `some false` = PER). -/
def scanMagic : List BFile → Option Bool
  | [] => none
  | f :: rest =>
    if read4 f.bytes == QNX_TAR_MAGIC then some true
    else if read4 f.bytes == PER_TAR_MAGIC then some false
    else scanMagic rest

def detectBackupFormat (files : List BFile) : BBBackupFormat :=
  match scanMagic files with
  | some true =>
    { type := BFType.BB10_TAR_QNX, confidence := 95,
      details := "BB10 QNX TAR archive (PlayBook format). Header: 0x514E5800. Contains encrypted app/media/settings tarballs.",
      manifestFound := hasManifest files, pkgInfoFound := hasPkgInfo files,
      archiveFiles := tarMembers files }
  | some false =>
    { type := BFType.BB10_TAR_PER, confidence := 95,
      details := "BB10 PER TAR archive (Z10/Q10 format). Header: 0x50455200. Encrypted with BlackBerry ID QBEK key.",
      manifestFound := hasManifest files, pkgInfoFound := hasPkgInfo files,
      archiveFiles := tarMembers files }
  | none =>
    if hasPkgInfo files && hasManifest files &&
        (hasArchiveDir files || decide (0 < tarCount files)) then
      { type := BFType.BB10_BBB, confidence := 90,
        details := "BB10 BBB backup. Contains PkgInfo + Manifest.xml + Archive/ with encrypted TAR files (apps.tar, media.tar, settings.tar). AES encrypted by default with BlackBerry Link.",
        manifestFound := true, pkgInfoFound := true,
        archiveFiles := tarMembers files }
    else if hasManifest files && decide (3 < datCount files) && !hasPkgInfo files then
      { type := BFType.BBBv2_Windows, confidence := 85,
        details := "BBB v2 (Windows Desktop Manager format). ZIP containing individual .DAT database files + Manifest.xml listing all databases.",
        manifestFound := true, pkgInfoFound := false, archiveFiles := [] }
    else if hasIpd files then
      { type := BFType.IPD, confidence := 90,
        details := "IPD (Inter@ctive Pager Device) backup. Single file containing multiple database structures. Created by BB Desktop Manager on Windows.",
        manifestFound := false, pkgInfoFound := false, archiveFiles := [] }
    else if decide (0 < remCount files) && decide (0 < datCount files) then
      { type := BFType.BBBv1_Mac, confidence := 70,
        details := "Likely BBB v1 (Mac format). Contains .rem and .dat files. Originally a ZIP containing an IPD file.",
        manifestFound := hasManifest files, pkgInfoFound := false, archiveFiles := [] }
    else
      { type := BFType.Unknown, confidence := 30,
        details := "Unrecognized format. Found: " ++ toString (remCount files) ++
          " .rem, " ++ toString (datCount files) ++ " .dat, " ++
          toString (tarCount files) ++ " .tar files.",
        manifestFound := hasManifest files, pkgInfoFound := hasPkgInfo files,
        archiveFiles := [] }

/-- A PER-magic file listed before a QNX-magic file. -/
def c5PerFile : BFile := { rel := "b.bin", base := "b.bin", bytes := [80, 69, 82, 0] }

def c5QnxFile : BFile := { rel := "a.bin", base := "a.bin", bytes := [81, 78, 88, 0] }

/--
C5 (counterexample): a directory containing a file whose first 4 bytes are
`51 4E 58 00` is *not* always classified `BB10_TAR_QNX`: the scan checks
both magics file by file, so a PER-magic file earlier in the list wins and
the classifier returns `BB10_TAR_PER`.
-/
theorem C5_counterexample :
    (detectBackupFormat [c5PerFile, c5QnxFile]).type = BFType.BB10_TAR_PER ∧
      ¬ (detectBackupFormat [c5PerFile, c5QnxFile]).type = BFType.BB10_TAR_QNX ∧
      read4 c5QnxFile.bytes = QNX_TAR_MAGIC := by
  decide

theorem scanMagic_qnx (f : BFile) (hq : read4 f.bytes = QNX_TAR_MAGIC) :
    ∀ (pre post : List BFile),
      (∀ g ∈ pre, read4 g.bytes ≠ PER_TAR_MAGIC) →
      scanMagic (pre ++ f :: post) = some true := by
  intro pre
  induction pre with
  | nil =>
    intro post _
    simp only [List.nil_append, scanMagic]
    rw [if_pos (by rw [hq]; rfl)]
  | cons g rest ih =>
    intro post hpre
    simp only [List.cons_append, scanMagic]
    by_cases hg : read4 g.bytes == QNX_TAR_MAGIC
    · rw [if_pos hg]
    · rw [if_neg hg, if_neg (by
        have := hpre g (by simp)
        simpa using this)]
      exact ih post (fun g' hg' => hpre g' (by simp [hg']))

/--
C5 (amended): a file whose first 4 bytes are `51 4E 58 00` forces
`BB10_TAR_QNX` with confidence 95 regardless of any other directory
contents, *provided* no file scanned before it bears the PER magic
`50 45 52 00` (the per-file scan tests both magics and the first magic
file in list order decides).
-/
theorem C5_qnx_rule_amended (pre post : List BFile) (f : BFile)
    (hq : read4 f.bytes = QNX_TAR_MAGIC)
    (hpre : ∀ g ∈ pre, read4 g.bytes ≠ PER_TAR_MAGIC) :
    (detectBackupFormat (pre ++ f :: post)).type = BFType.BB10_TAR_QNX ∧
      (detectBackupFormat (pre ++ f :: post)).confidence = 95 := by
  rw [detectBackupFormat, scanMagic_qnx f hq pre post hpre]
  exact ⟨rfl, rfl⟩

theorem C5_witness :
    (detectBackupFormat [c5QnxFile, c5PerFile]).type = BFType.BB10_TAR_QNX ∧
      (detectBackupFormat [c5QnxFile, c5PerFile]).confidence = 95 :=
  C5_qnx_rule_amended [] [c5PerFile] c5QnxFile (by decide) (by decide)

def c6Manifest : BFile :=
  { rel := "Manifest.xml", base := "Manifest.xml", bytes := [60, 63, 120, 109] }

def c6PkgInfo : BFile :=
  { rel := "PkgInfo", base := "PkgInfo", bytes := [1, 2, 3, 4] }

def c6Ipd : BFile :=
  { rel := "backup.ipd", base := "backup.ipd", bytes := [9, 9, 9, 9] }

/--
C6 (counterexample): evidence flags are *not* carried into every result: a
tree holding `Manifest.xml`, `PkgInfo` and an `.ipd` file (no tar, no
archive directory) falls through to the IPD rule, whose result hardcodes
`manifestFound = false` and `pkgInfoFound = false` although both files are
present.
-/
theorem C6_counterexample :
    (detectBackupFormat [c6Manifest, c6PkgInfo, c6Ipd]).type = BFType.IPD ∧
      (detectBackupFormat [c6Manifest, c6PkgInfo, c6Ipd]).manifestFound = false ∧
      hasManifest [c6Manifest, c6PkgInfo, c6Ipd] = true ∧
      (detectBackupFormat [c6Manifest, c6PkgInfo, c6Ipd]).pkgInfoFound = false ∧
      hasPkgInfo [c6Manifest, c6PkgInfo, c6Ipd] = true := by
  decide

/--
C6 (amended): the evidence flags reflect the scanned tree except on the
hardcoded branches: `manifestFound` equals the tree's Manifest.xml
presence for every result type but `IPD` (where it is hardcoded `false`);
`pkgInfoFound` equals the tree's PkgInfo presence for every type but `IPD`
and `BBBv1_Mac`; and the `.tar` member list is carried only by the
`BB10_TAR_QNX`, `BB10_TAR_PER` and `BB10_BBB` results — the `IPD`,
`BBBv2_Windows`, `BBBv1_Mac` and `Unknown` results report an empty archive
list.
-/
theorem C6_evidence_flags_amended (files : List BFile) :
    ((detectBackupFormat files).type ≠ BFType.IPD →
      (detectBackupFormat files).manifestFound = hasManifest files) ∧
    (((detectBackupFormat files).type ≠ BFType.IPD ∧
        (detectBackupFormat files).type ≠ BFType.BBBv1_Mac) →
      (detectBackupFormat files).pkgInfoFound = hasPkgInfo files) ∧
    (((detectBackupFormat files).type = BFType.BB10_TAR_QNX ∨
        (detectBackupFormat files).type = BFType.BB10_TAR_PER ∨
        (detectBackupFormat files).type = BFType.BB10_BBB) →
      (detectBackupFormat files).archiveFiles = tarMembers files) ∧
    (((detectBackupFormat files).type = BFType.IPD ∨
        (detectBackupFormat files).type = BFType.BBBv2_Windows ∨
        (detectBackupFormat files).type = BFType.BBBv1_Mac ∨
        (detectBackupFormat files).type = BFType.Unknown) →
      (detectBackupFormat files).archiveFiles = []) := by
  rw [detectBackupFormat]
  rcases hscan : scanMagic files with _ | b
  · -- no magic file: walk the decision chain
    by_cases h1 : (hasPkgInfo files && hasManifest files &&
        (hasArchiveDir files || decide (0 < tarCount files))) = true
    · rw [if_pos h1]
      simp only [Bool.and_eq_true] at h1
      refine ⟨fun _ => h1.1.2.symm, fun _ => h1.1.1.symm, fun _ => rfl, ?_⟩
      rintro (h | h | h | h) <;> simp at h
    · rw [if_neg h1]
      by_cases h2 : (hasManifest files && decide (3 < datCount files) &&
          !hasPkgInfo files) = true
      · rw [if_pos h2]
        simp only [Bool.and_eq_true, Bool.not_eq_true'] at h2
        refine ⟨fun _ => h2.1.1.symm, fun _ => h2.2.symm, ?_, fun _ => rfl⟩
        rintro (h | h | h) <;> simp at h
      · rw [if_neg h2]
        by_cases h3 : hasIpd files = true
        · rw [if_pos h3]
          refine ⟨fun h => absurd rfl h, ?_, ?_, fun _ => rfl⟩
          · rintro ⟨h, -⟩
            exact absurd rfl h
          · rintro (h | h | h) <;> simp at h
        · rw [if_neg h3]
          by_cases h4 : (decide (0 < remCount files) && decide (0 < datCount files)) = true
          · rw [if_pos h4]
            refine ⟨fun _ => rfl, ?_, ?_, fun _ => rfl⟩
            · rintro ⟨-, h⟩
              exact absurd rfl h
            · rintro (h | h | h) <;> simp at h
          · rw [if_neg h4]
            refine ⟨fun _ => rfl, fun _ => rfl, ?_, fun _ => rfl⟩
            rintro (h | h | h) <;> simp at h
  · cases b
    · -- PER result
      refine ⟨fun _ => rfl, fun _ => rfl, fun _ => rfl, ?_⟩
      rintro (h | h | h | h) <;> simp at h
    · -- QNX result
      refine ⟨fun _ => rfl, fun _ => rfl, fun _ => rfl, ?_⟩
      rintro (h | h | h | h) <;> simp at h

/-
### Date scanner, 10-digit text pass of `findDateArtifacts`

    const unixPattern = /\b(1[0-9]{9})\b/g;
    let match, unixCount = 0;
    while ((match = unixPattern.exec(text)) !== null && unixCount < 5) {
      const ts = parseInt(match[1]);
      if (ts > 946684800 && ts < 2524608000) { ...push unix_epoch artifact...; unixCount++; }
    }

The regex demands a digit run of exactly 10 digits *starting with the
digit 1*, delimited by word boundaries.  The decoded ISO-8601 string
`new Date(ts * 1000).toISOString()` is represented by the epoch
millisecond value it renders, `ts * 1000`.  The scan operates on the
UTF-8 textified buffer, modelled as the character list `text`.
-/

def isDigitC (c : Char) : Bool :=
  decide (48 ≤ c.toNat) && decide (c.toNat ≤ 57)

/-- JavaScript regex word characters `[A-Za-z0-9_]` (what `\b` tests), by
code point. -/
def isWordC (c : Char) : Bool :=
  isDigitC c || (decide (97 ≤ c.toNat) && decide (c.toNat ≤ 122)) ||
    (decide (65 ≤ c.toNat) && decide (c.toNat ≤ 90)) || c == '_'

/-- `\b(1[0-9]{9})\b` matches at position `i` of `text`. -/
def runAt (text : List Char) (i : Nat) : Bool :=
  decide (i + 10 ≤ text.length) &&
  (text.getD i ' ' == '1') &&
  ((List.range 9).all (fun j => isDigitC (text.getD (i + 1 + j) ' '))) &&
  (decide (i = 0) || !isWordC (text.getD (i - 1) ' ')) &&
  (decide (i + 10 = text.length) || !isWordC (text.getD (i + 10) ' '))

def findRunAux (text : List Char) : Nat → Nat → Option Nat
  | 0, _ => none
  | fuel + 1, i =>
    if i + 10 ≤ text.length then
      (if runAt text i then some i else findRunAux text fuel (i + 1))
    else none

/-- `regex.exec` from `lastIndex = pos`: the first match position ≥ `pos`. -/
def findRun (text : List Char) (pos : Nat) : Option Nat :=
  findRunAux text (text.length + 1 - pos) pos

/-- `parseInt` over a run of decimal digits. -/
def charsToNat (cs : List Char) : Nat :=
  cs.foldl (fun a c => 10 * a + (c.toNat - 48)) 0

structure BBDateArtifact where
  raw : List Char
  decodedMs : Nat
  format : String
deriving Repr, DecidableEq

def unixScanAux (text : List Char) : Nat → Nat → Nat → List BBDateArtifact
  | 0, _, _ => []
  | fuel + 1, pos, count =>
    if count < 5 then
      match findRun text pos with
      | none => []
      | some i =>
        if 946684800 < charsToNat ((text.drop i).take 10) ∧
            charsToNat ((text.drop i).take 10) < 2524608000 then
          ⟨(text.drop i).take 10, charsToNat ((text.drop i).take 10) * 1000, "unix_epoch"⟩ ::
            unixScanAux text fuel (i + 10) (count + 1)
        else unixScanAux text fuel (i + 10) count
    else []

/-- The `unix_epoch` artifacts the 10-digit text pass reports. -/
def findUnixEpochArtifacts (text : List Char) : List BBDateArtifact :=
  unixScanAux text (text.length + 1) 0 0

def c7Text : List Char := " 2000000000 ".toList

/--
C7 (counterexample): the buffer textifying to `" 2000000000 "` contains a
word-delimited 10-digit decimal run whose value 2000000000 lies inside
[946684800, 2524608000], yet the scanner reports no `unix_epoch` artifact:
the regex `\b(1[0-9]{9})\b` only matches runs whose first digit is 1.
-/
theorem C7_counterexample :
    findUnixEpochArtifacts c7Text = [] ∧
      (c7Text.drop 1).take 10 = "2000000000".toList ∧
      charsToNat ((c7Text.drop 1).take 10) = 2000000000 ∧
      946684800 ≤ 2000000000 ∧ (2000000000 : Nat) ≤ 2524608000 ∧
      (∀ i, runAt c7Text i = false) := by
  refine ⟨by decide, by decide, by decide, by decide, by decide, ?_⟩
  intro i
  match i with
  | 0 => decide
  | 1 => decide
  | 2 => decide
  | j + 3 =>
    have hlen : c7Text.length = 12 := by decide
    rw [runAt]
    have h1 : decide (j + 3 + 10 ≤ c7Text.length) = false := by
      rw [hlen]
      simp only [decide_eq_false_iff_not]
      omega
    rw [h1, Bool.false_and, Bool.false_and, Bool.false_and, Bool.false_and]


theorem findRunAux_some {text : List Char} :
    ∀ (fuel i j : Nat), findRunAux text fuel i = some j →
      runAt text j = true ∧ i ≤ j := by
  intro fuel
  induction fuel with
  | zero => intro i j h; simp [findRunAux] at h
  | succ f ih =>
    intro i j h
    simp only [findRunAux] at h
    by_cases hle : i + 10 ≤ text.length
    · rw [if_pos hle] at h
      by_cases hrun : runAt text i = true
      · rw [if_pos hrun] at h
        obtain rfl : i = j := by simpa using h
        exact ⟨hrun, Nat.le_refl _⟩
      · rw [if_neg hrun] at h
        obtain ⟨h1, h2⟩ := ih (i + 1) j h
        exact ⟨h1, by omega⟩
    · rw [if_neg hle] at h
      exact absurd h (by simp)

theorem findRunAux_none {text : List Char} :
    ∀ (fuel i : Nat), findRunAux text fuel i = none →
      text.length + 1 ≤ fuel + i →
      ∀ k, i ≤ k → runAt text k = false := by
  intro fuel
  induction fuel with
  | zero =>
    intro i _ hfl k hk
    cases hrun : runAt text k with
    | false => rfl
    | true =>
      have h10 : k + 10 ≤ text.length := by
        have h' := hrun
        simp only [runAt, Bool.and_eq_true, decide_eq_true_eq] at h'
        exact h'.1.1.1.1
      omega
  | succ f ih =>
    intro i h hfl k hk
    simp only [findRunAux] at h
    by_cases hle : i + 10 ≤ text.length
    · rw [if_pos hle] at h
      by_cases hrun : runAt text i = true
      · rw [if_pos hrun] at h
        exact absurd h (by simp)
      · rw [if_neg hrun] at h
        rcases Nat.eq_or_lt_of_le hk with heq | hlt
        · subst heq
          simpa using hrun
        · exact ih (i + 1) h (by omega) k (by omega)
    · cases hrun : runAt text k with
      | false => rfl
      | true =>
        have h10 : k + 10 ≤ text.length := by
          have h' := hrun
          simp only [runAt, Bool.and_eq_true, decide_eq_true_eq] at h'
          exact h'.1.1.1.1
        -- a run at k ≥ i needs k + 10 ≤ length, impossible since i + 10 > length
        omega

theorem unixScanAux_length (text : List Char) :
    ∀ (fuel pos count : Nat),
      (unixScanAux text fuel pos count).length ≤ 5 - count := by
  intro fuel
  induction fuel with
  | zero => intro pos count; simp [unixScanAux]
  | succ f ih =>
    intro pos count
    by_cases hc : count < 5
    · cases hfind : findRun text pos with
      | none => simp [unixScanAux, hfind]
      | some i =>
        by_cases hrange : 946684800 < charsToNat ((text.drop i).take 10) ∧
            charsToNat ((text.drop i).take 10) < 2524608000
        · have hstep : unixScanAux text (f + 1) pos count =
              ⟨(text.drop i).take 10, charsToNat ((text.drop i).take 10) * 1000,
                "unix_epoch"⟩ :: unixScanAux text f (i + 10) (count + 1) := by
            simp [unixScanAux, hc, hfind, hrange]
          rw [hstep]
          have hrec := ih (i + 10) (count + 1)
          simp only [List.length_cons]
          omega
        · have hstep : unixScanAux text (f + 1) pos count =
              unixScanAux text f (i + 10) count := by
            simp [unixScanAux, hc, hfind, hrange]
          rw [hstep]
          exact ih (i + 10) count
    · simp [unixScanAux, hc]

theorem unixScanAux_mem (text : List Char) :
    ∀ (fuel pos count : Nat) (a : BBDateArtifact),
      a ∈ unixScanAux text fuel pos count →
      ∃ i, runAt text i = true ∧ a.raw = (text.drop i).take 10 ∧
        a.decodedMs = charsToNat a.raw * 1000 ∧
        a.format = "unix_epoch" := by
  intro fuel
  induction fuel with
  | zero => intro pos count a ha; simp [unixScanAux] at ha
  | succ f ih =>
    intro pos count a ha
    by_cases hc : count < 5
    · cases hfind : findRun text pos with
      | none =>
        rw [show unixScanAux text (f + 1) pos count = [] from by
          simp [unixScanAux, hc, hfind]] at ha
        simp at ha
      | some i =>
        have hrun : runAt text i = true := (findRunAux_some _ _ _ hfind).1
        by_cases hrange : 946684800 < charsToNat ((text.drop i).take 10) ∧
            charsToNat ((text.drop i).take 10) < 2524608000
        · rw [show unixScanAux text (f + 1) pos count =
              ⟨(text.drop i).take 10, charsToNat ((text.drop i).take 10) * 1000,
                "unix_epoch"⟩ :: unixScanAux text f (i + 10) (count + 1) from by
            simp [unixScanAux, hc, hfind, hrange]] at ha
          rcases List.mem_cons.1 ha with ha | ha
          · subst ha
            exact ⟨i, hrun, rfl, rfl, rfl⟩
          · exact ih _ _ a ha
        · rw [show unixScanAux text (f + 1) pos count =
              unixScanAux text f (i + 10) count from by
            simp [unixScanAux, hc, hfind, hrange]] at ha
          exact ih _ _ a ha
    · rw [show unixScanAux text (f + 1) pos count = [] from by
        simp [unixScanAux, hc]] at ha
      simp at ha

theorem unixScanAux_ne_nil (text : List Char) (f pos count j : Nat)
    (hc : count < 5) (hfind : findRun text pos = some j)
    (hrange : 946684800 < charsToNat ((text.drop j).take 10) ∧
      charsToNat ((text.drop j).take 10) < 2524608000) :
    unixScanAux text (f + 1) pos count ≠ [] := by
  have hstep : unixScanAux text (f + 1) pos count =
      ⟨(text.drop j).take 10, charsToNat ((text.drop j).take 10) * 1000,
        "unix_epoch"⟩ :: unixScanAux text f (j + 10) (count + 1) := by
    simp [unixScanAux, hc, hfind, hrange]
  rw [hstep]
  simp

theorem foldl_digits_bounds :
    ∀ (ds : List Char) (acc : Nat), (∀ c ∈ ds, isDigitC c = true) →
      acc * 10 ^ ds.length ≤ List.foldl (fun a c => 10 * a + (c.toNat - 48)) acc ds ∧
      List.foldl (fun a c => 10 * a + (c.toNat - 48)) acc ds < (acc + 1) * 10 ^ ds.length := by
  intro ds
  induction ds with
  | nil => intro acc _; simp
  | cons c cs ih =>
    intro acc hd
    have hc : 48 ≤ c.toNat ∧ c.toNat ≤ 57 := by
      have h' := hd c (by simp)
      simp only [isDigitC, Bool.and_eq_true, decide_eq_true_eq] at h'
      exact h'
    have hrec := ih (10 * acc + (c.toNat - 48)) (fun c' hc' => hd c' (by simp [hc']))
    simp only [List.foldl_cons, List.length_cons]
    constructor
    · calc acc * 10 ^ (cs.length + 1) = (10 * acc) * 10 ^ cs.length := by ring
        _ ≤ (10 * acc + (c.toNat - 48)) * 10 ^ cs.length :=
            Nat.mul_le_mul_right _ (by omega)
        _ ≤ _ := hrec.1
    · calc List.foldl (fun a c => 10 * a + (c.toNat - 48)) (10 * acc + (c.toNat - 48)) cs
          < (10 * acc + (c.toNat - 48) + 1) * 10 ^ cs.length := hrec.2
        _ ≤ (10 * acc + 10) * 10 ^ cs.length := Nat.mul_le_mul_right _ (by omega)
        _ = (acc + 1) * 10 ^ (cs.length + 1) := by ring

theorem run_value_bounds (s : List Char) (hlen : s.length = 10)
    (h0 : s.getD 0 ' ' = '1')
    (hd : ∀ k, 1 ≤ k → k < 10 → isDigitC (s.getD k ' ') = true) :
    1000000000 ≤ charsToNat s ∧ charsToNat s < 2000000000 := by
  cases s with
  | nil => simp at hlen
  | cons c cs =>
    have hcs : cs.length = 9 := by simpa using hlen
    have hc1 : c = '1' := by simpa using h0
    subst hc1
    have hdigits : ∀ c' ∈ cs, isDigitC c' = true := by
      intro c' hc'
      obtain ⟨k, hk, heq⟩ := List.getElem_of_mem hc'
      have hgd : cs.getD k ' ' = c' := by
        rw [List.getD_eq_getElem cs ' ' hk, heq]
      have hk9 : k + 1 < 10 := by omega
      have h' := hd (k + 1) (by omega) hk9
      have hcons : (('1' :: cs).getD (k + 1) ' ') = cs.getD k ' ' := rfl
      rw [hcons, hgd] at h'
      exact h'
    have hfold := foldl_digits_bounds cs 1 hdigits
    rw [hcs] at hfold
    have hchars : charsToNat ('1' :: cs)
        = List.foldl (fun a c => 10 * a + (c.toNat - 48)) 1 cs := rfl
    rw [hchars]
    constructor
    · calc (1000000000 : Nat) = 1 * 10 ^ 9 := by norm_num
        _ ≤ _ := hfold.1
    · calc List.foldl (fun a c => 10 * a + (c.toNat - 48)) 1 cs
          < (1 + 1) * 10 ^ 9 := hfold.2
        _ = 2000000000 := by norm_num

theorem runAt_slice {text : List Char} {i : Nat} (h : runAt text i = true) :
    ((text.drop i).take 10).length = 10 ∧
      ((text.drop i).take 10).getD 0 ' ' = '1' ∧
      ∀ k, 1 ≤ k → k < 10 → isDigitC (((text.drop i).take 10).getD k ' ') = true := by
  simp only [runAt, Bool.and_eq_true, decide_eq_true_eq, List.all_eq_true,
    List.mem_range, beq_iff_eq] at h
  obtain ⟨⟨⟨⟨hlen, h1⟩, hdig⟩, -⟩, -⟩ := h
  have hslice : ((text.drop i).take 10).length = 10 := by
    simp only [List.length_take, List.length_drop]
    omega
  have hgd : ∀ k, k < 10 → ((text.drop i).take 10).getD k ' ' = text.getD (i + k) ' ' := by
    intro k hk
    have hk1 : k < ((text.drop i).take 10).length := by omega
    have hk2 : i + k < text.length := by omega
    rw [List.getD_eq_getElem _ ' ' hk1, List.getD_eq_getElem _ ' ' hk2,
      List.getElem_take, List.getElem_drop]
  refine ⟨hslice, ?_, ?_⟩
  · rw [hgd 0 (by omega), Nat.add_zero, h1]
  · intro k hk1 hk2
    rw [hgd k hk2]
    have h' := hdig (k - 1) (by omega)
    have harith : i + 1 + (k - 1) = i + k := by omega
    rwa [harith] at h'


theorem runAt_le {text : List Char} {i : Nat} (h : runAt text i = true) :
    i + 10 ≤ text.length := by
  simp only [runAt, Bool.and_eq_true, decide_eq_true_eq] at h
  exact h.1.1.1.1

/-- Two word-delimited runs cannot overlap: the character before the later
run's first digit would be one of the earlier run's digits, a word
character, violating the later run's leading `\b`. -/
theorem runAt_sep {text : List Char} {i j : Nat} (hi : runAt text i = true)
    (hj : runAt text j = true) (hij : i < j) : i + 10 ≤ j := by
  by_contra hcon
  push_neg at hcon
  simp only [runAt, Bool.and_eq_true, decide_eq_true_eq, List.all_eq_true,
    List.mem_range, beq_iff_eq, Bool.or_eq_true, Bool.not_eq_true'] at hi hj
  obtain ⟨⟨⟨⟨-, hi1⟩, hidig⟩, -⟩, -⟩ := hi
  obtain ⟨⟨⟨⟨-, -⟩, -⟩, hjD⟩, -⟩ := hj
  rcases hjD with hj0 | hjw
  · omega
  · have hdigit : isDigitC (text.getD (j - 1) ' ') = true := by
      rcases Nat.eq_or_lt_of_le (by omega : i ≤ j - 1) with heq | hlt
      · rw [← heq, hi1]
        decide
      · have hd := hidig (j - 1 - (i + 1)) (by omega)
        have harith : i + 1 + (j - 1 - (i + 1)) = j - 1 := by omega
        rwa [harith] at hd
    simp [isWordC] at hjw
    have hdigit' : isDigitC (text[j - 1]?.getD ' ') = true := by
      simpa using hdigit
    have hne := hjw.1.1.1
    rw [hdigit'] at hne
    exact absurd hne (by simp)

theorem findRunAux_some_min {text : List Char} :
    ∀ (fuel i j : Nat), findRunAux text fuel i = some j →
      ∀ k, i ≤ k → k < j → runAt text k = false := by
  intro fuel
  induction fuel with
  | zero => intro i j h; simp [findRunAux] at h
  | succ f ih =>
    intro i j h k hk1 hk2
    simp only [findRunAux] at h
    by_cases hle : i + 10 ≤ text.length
    · rw [if_pos hle] at h
      by_cases hrun : runAt text i = true
      · rw [if_pos hrun] at h
        obtain rfl : i = j := by simpa using h
        omega
      · rw [if_neg hrun] at h
        rcases Nat.eq_or_lt_of_le hk1 with heq | hlt
        · subst heq
          simpa using hrun
        · exact ih (i + 1) j h k (by omega) hk2
    · rw [if_neg hle] at h
      exact absurd h (by simp)

/-- `regex.exec` semantics of `findRun`: a hit is a run, at or after the
scan position, and the *first* such run. -/
theorem findRun_some {text : List Char} {pos j : Nat} (h : findRun text pos = some j) :
    runAt text j = true ∧ pos ≤ j ∧ ∀ k, pos ≤ k → k < j → runAt text k = false := by
  have h' : findRunAux text (text.length + 1 - pos) pos = some j := h
  obtain ⟨h1, h2⟩ := findRunAux_some _ _ _ h'
  exact ⟨h1, h2, findRunAux_some_min _ _ _ h'⟩

theorem findRun_none {text : List Char} {pos : Nat} (h : findRun text pos = none) :
    ∀ k, pos ≤ k → runAt text k = false := by
  have h' : findRunAux text (text.length + 1 - pos) pos = none := h
  exact findRunAux_none _ _ h' (by omega)

/-- All match positions of `\b(1[0-9]{9})\b` in `text`, in text order. -/
def runPositions (text : List Char) : List Nat :=
  (List.range text.length).filter (fun i => runAt text i)

/-- The match positions at or after `pos`, in text order. -/
def runsFrom (text : List Char) (pos : Nat) : List Nat :=
  (List.range text.length).filter (fun i => runAt text i && decide (pos ≤ i))

theorem runsFrom_nil {text : List Char} {pos : Nat} (h : findRun text pos = none) :
    runsFrom text pos = [] := by
  rw [runsFrom, List.filter_eq_nil_iff]
  intro j _ hcon
  simp only [Bool.and_eq_true, decide_eq_true_eq] at hcon
  have hf := findRun_none h j hcon.2
  rw [hcon.1] at hf
  exact absurd hf (by simp)

/-- When the scan finds its next match `i`, the runs at or after the scan
position are exactly `i` followed by the runs at or after `i + 10` (runs
never overlap, so advancing `lastIndex` past the match skips nothing). -/
theorem runsFrom_cons {text : List Char} {pos i : Nat}
    (h : findRun text pos = some i) :
    runsFrom text pos = i :: runsFrom text (i + 10) := by
  obtain ⟨hrun, hpos, hmin⟩ := findRun_some h
  have hiL : i < text.length := by
    have := runAt_le hrun
    omega
  have hPAB : ∀ j, j < text.length →
      ((runAt text j && decide (pos ≤ j)) = true ↔
        ((decide (j = i) : Bool) = true ∨
          (runAt text j && decide (i + 10 ≤ j)) = true)) := by
    intro j _
    simp only [Bool.and_eq_true, decide_eq_true_eq]
    constructor
    · rintro ⟨hrj, hpj⟩
      rcases Nat.lt_trichotomy j i with hlt | heq | hgt
      · have hf := hmin j hpj hlt
        rw [hrj] at hf
        exact absurd hf (by simp)
      · exact Or.inl heq
      · exact Or.inr ⟨hrj, runAt_sep hrun hrj hgt⟩
    · rintro (rfl | ⟨hrj, hij⟩)
      · exact ⟨hrun, hpos⟩
      · exact ⟨hrj, by omega⟩
  have hOrder : ∀ j1 j2, j1 < text.length → j2 < text.length →
      (decide (j1 = i) : Bool) = true →
      (runAt text j2 && decide (i + 10 ≤ j2)) = true → j1 < j2 := by
    intro j1 j2 _ _ hA hB
    simp only [decide_eq_true_eq] at hA
    simp only [Bool.and_eq_true, decide_eq_true_eq] at hB
    omega
  have hsplit := filter_range_split text.length
    (fun j => runAt text j && decide (pos ≤ j))
    (fun j => decide (j = i))
    (fun j => runAt text j && decide (i + 10 ≤ j)) hPAB hOrder
  rw [runsFrom, hsplit, filter_range_eq_single hiL]
  rfl

/-- The scan loop of the 10-digit pass, closed form: starting at `pos`
with `count` artifacts already taken, it emits one artifact per remaining
run (in text order) up to the cap, the range check never rejecting because
a leading-1 run's value always lies inside the checked interval. -/
theorem unixScanAux_eq (text : List Char) :
    ∀ (fuel pos count : Nat), text.length + 1 ≤ fuel + pos → count ≤ 5 →
      unixScanAux text fuel pos count
        = ((runsFrom text pos).take (5 - count)).map (fun i =>
            ⟨(text.drop i).take 10, charsToNat ((text.drop i).take 10) * 1000,
              "unix_epoch"⟩) := by
  intro fuel
  induction fuel with
  | zero =>
    intro pos count hf _
    have hnil : runsFrom text pos = [] := by
      rw [runsFrom, List.filter_eq_nil_iff]
      intro j _ hcon
      simp only [Bool.and_eq_true, decide_eq_true_eq] at hcon
      have h10 := runAt_le hcon.1
      omega
    rw [hnil]
    simp [unixScanAux]
  | succ f ih =>
    intro pos count hf hc5
    by_cases hc : count < 5
    · cases hfind : findRun text pos with
      | none =>
        rw [show unixScanAux text (f + 1) pos count = [] from by
          simp [unixScanAux, hc, hfind], runsFrom_nil hfind]
        simp
      | some i =>
        obtain ⟨hrun, hpos, -⟩ := findRun_some hfind
        obtain ⟨hslen, hs0, hsd⟩ := runAt_slice hrun
        have hbounds := run_value_bounds _ hslen hs0 hsd
        have hrange : 946684800 < charsToNat ((text.drop i).take 10) ∧
            charsToNat ((text.drop i).take 10) < 2524608000 := ⟨by omega, by omega⟩
        rw [show unixScanAux text (f + 1) pos count =
            ⟨(text.drop i).take 10, charsToNat ((text.drop i).take 10) * 1000,
              "unix_epoch"⟩ :: unixScanAux text f (i + 10) (count + 1) from by
          simp [unixScanAux, hc, hfind, hrange]]
        rw [runsFrom_cons hfind]
        have hcount : 5 - count = (5 - (count + 1)) + 1 := by omega
        rw [hcount, List.take_succ_cons, List.map_cons,
          ih (i + 10) (count + 1) (by omega) (by omega)]
    · have hc5' : count = 5 := by omega
      subst hc5'
      rw [show unixScanAux text (f + 1) pos 5 = [] from by simp [unixScanAux]]
      simp

/--
C7 (amended): the 10-digit text pass reports *exactly* the word-delimited
10-digit runs beginning with the digit 1 — the matches of
`\b(1[0-9]{9})\b` — in text order, capped at the first 5, each decoded to
the corresponding epoch instant (`value × 1000` ms).  Every such run's
value lies in [1000000000, 1999999999], a strict subset of the claimed
acceptance interval (946684800, 2524608000), so the range check never
rejects a match; conversely values without a leading 1, e.g. 2000000000
inside the claimed interval, are never matched at all.
-/
theorem C7_unix_epoch_amended (text : List Char) :
    findUnixEpochArtifacts text
      = ((runPositions text).take 5).map (fun i =>
          ⟨(text.drop i).take 10, charsToNat ((text.drop i).take 10) * 1000,
            "unix_epoch"⟩) ∧
    ∀ i, runAt text i = true →
      1000000000 ≤ charsToNat ((text.drop i).take 10) ∧
      charsToNat ((text.drop i).take 10) < 2000000000 := by
  constructor
  · have h := unixScanAux_eq text (text.length + 1) 0 0 (by omega) (by omega)
    have hrp : runsFrom text 0 = runPositions text := by
      rw [runsFrom, runPositions]
      congr 1
      funext j
      simp [Nat.zero_le]
    rw [findUnixEpochArtifacts, h, hrp]
  · intro i hrun
    obtain ⟨hslen, hs0, hsd⟩ := runAt_slice hrun
    exact run_value_bounds _ hslen hs0 hsd

end Forensic
